import Mathlib

/-!
Verification of the LaTeX normalizer in latex_to_docx_all_v2.py.

Texts are modelled as lists of characters. Python string scanning is
translated into structural recursion over character lists; regular
expressions that the script uses are unfolded into explicit scanning
functions that implement the same matching semantics on the concrete
patterns appearing in the code. Character classes are the ASCII parts of
the corresponding Python classes (the script is only ever run on LaTeX
sources, and no claim depends on non-ASCII letters).
-/

set_option maxHeartbeats 1000000

namespace L2D

abbrev Text := List Char

/-- ASCII approximation of the Python str.isspace class, which is also the
ASCII content of the regex class backslash-s. -/
def isSpaceChar (c : Char) : Bool :=
  c = ' ' || c = '\t' || c = '\n' || c = '\x0b' || c = '\x0c' || c = '\r'

/-- Line boundaries recognized by Python str.splitlines. -/
def isLineBreakChar (c : Char) : Bool :=
  c = '\n' || c = '\r' || c = '\x0b' || c = '\x0c' ||
  c = Char.ofNat 0x1c || c = Char.ofNat 0x1d || c = Char.ofNat 0x1e ||
  c = Char.ofNat 0x85 || c = Char.ofNat 0x2028 || c = Char.ofNat 0x2029

/-- Characters matched by the regex class [A-Za-z*] used for environment
names in RE_ENV_BEGIN and RE_ENV_END. -/
def isEnvNameChar (c : Char) : Bool := c.isAlpha || c = '*'

/-- ASCII content of the regex word class, used for word boundaries. -/
def isWordChar (c : Char) : Bool := c.isAlphanum || c = '_'

/-- Does the second list start with the first one. -/
def hasPfx : Text → Text → Bool
  | [], _ => true
  | _ :: _, [] => false
  | p :: ps, c :: cs => p = c && hasPfx ps cs

/-- Remove a leading occurrence of the first list from the second. -/
def stripPfx : Text → Text → Option Text
  | [], s => some s
  | _ :: _, [] => none
  | p :: ps, c :: cs => if p = c then stripPfx ps cs else none

/-- Substring test, modelling a regex search for a plain literal pattern. -/
def containsSub (p : Text) : Text → Bool
  | [] => p.isEmpty
  | s@(_ :: cs) => hasPfx p s || containsSub p cs

/-- Number of positions at which the pattern occurs (used only to state
claims about synthesized occurrences). -/
def countSub (p : Text) : Text → Nat
  | [] => if p.isEmpty then 1 else 0
  | s@(_ :: cs) => (if hasPfx p s then 1 else 0) + countSub p cs

/-- Python str.splitlines: split at every line boundary, with a CR-LF pair
counting as a single boundary, and no trailing empty line. -/
def splitlines : Text → List Text
  | [] => []
  | '\r' :: '\n' :: cs => [] :: splitlines cs
  | c :: cs =>
    if isLineBreakChar c then [] :: splitlines cs
    else
      match splitlines cs with
      | [] => [[c]]
      | l :: ls => (c :: l) :: ls

/-- Python newline-join of a list of lines. -/
def joinNL : List Text → Text
  | [] => []
  | [l] => l
  | l :: ls => l ++ '\n' :: joinNL ls

/-- Index of the first character satisfying the predicate, if any. -/
def findIdxFrom (p : Char → Bool) : Text → Option Nat
  | [] => none
  | c :: cs => if p c then some 0 else (findIdxFrom p cs).map (· + 1)

/-- Index of the first line satisfying the predicate, if any. -/
def findLineIdx (p : Text → Bool) : List Text → Option Nat
  | [] => none
  | l :: ls => if p l then some 0 else (findLineIdx p ls).map (· + 1)

/-- Index of the last occurrence of a character, if any. -/
def lastIdxOf (c : Char) : Text → Option Nat
  | [] => none
  | x :: xs =>
    match lastIdxOf c xs with
    | some k => some (k + 1)
    | none => if x = c then some 0 else none

/-- Python str.replace for a nonempty pattern: replace every
non-overlapping occurrence, scanning left to right.  The second argument
counts characters of a pending match that remain to be skipped. -/
def pyReplaceGo (pat rep : Text) : Text → Nat → Text
  | [], _ => []
  | _ :: cs, k + 1 => pyReplaceGo pat rep cs k
  | s@(c :: cs), 0 =>
    if hasPfx pat s then rep ++ pyReplaceGo pat rep cs (pat.length - 1)
    else c :: pyReplaceGo pat rep cs 0

def pyReplace (s pat rep : Text) : Text := pyReplaceGo pat rep s 0

-- ---------------------------------------------------------------------
-- Environment begin and end markers (RE_ENV_BEGIN, RE_ENV_END)
-- ---------------------------------------------------------------------

def beginKw : Text := "\\begin\x7b".data

def endKw : Text := "\\end\x7b".data

/-- Match one environment marker at the head of the text: the keyword,
then a nonempty greedy run of name characters, then a closing brace.
Returns the captured name and the total number of characters matched. -/
def matchEnvTok (kw : Text) (s : Text) : Option (Text × Nat) :=
  match stripPfx kw s with
  | none => none
  | some r =>
    let name := r.takeWhile isEnvNameChar
    if name.isEmpty then none
    else
      match r.drop name.length with
      | '\x7d' :: _ => some (name, kw.length + name.length + 1)
      | _ => none

/-- All captured names of non-overlapping matches, scanning left to right
as re.finditer does.  The numeric argument counts characters of the
current match that remain to be skipped. -/
def envTokensGo (kw : Text) : Text → Nat → List Text
  | [], _ => []
  | _ :: cs, k + 1 => envTokensGo kw cs k
  | s@(_ :: cs), 0 =>
    match matchEnvTok kw s with
    | some (name, n) => name :: envTokensGo kw cs (n - 1)
    | none => envTokensGo kw cs 0

def envTokens (kw : Text) (s : Text) : List Text := envTokensGo kw s 0

/-- The fixed allow-list BALANCE_ENVS. -/
def BALANCE_ENVS : List Text :=
  ["itemize".data, "enumerate".data, "description".data, "tabular".data,
   "tabular*".data, "center".data, "flushleft".data, "flushright".data,
   "quote".data, "quotation".data, "list".data]

-- ---------------------------------------------------------------------
-- Brace analysis and optional fix
-- ---------------------------------------------------------------------

/-- The character scan of one line in find_unmatched_open_braces: push a
record for every opening brace, pop the most recent record on a closing
brace when the stack is nonempty.  The stack is kept in Python list
order, oldest record first. -/
def braceLineGo (i : Nat) (raw : Text) :
    Text → Nat → List (Nat × Nat × Text) → List (Nat × Nat × Text)
  | [], _, st => st
  | c :: cs, col, st =>
    if c = '\x7b' then braceLineGo i raw cs (col + 1) (st ++ [(i, col + 1, raw)])
    else if c = '\x7d' then
      braceLineGo i raw cs (col + 1) (if st.isEmpty then st else st.dropLast)
    else braceLineGo i raw cs (col + 1) st

def braceLines : Nat → List Text → List (Nat × Nat × Text) → List (Nat × Nat × Text)
  | _, [], st => st
  | i, raw :: rest, st =>
    braceLines (i + 1) rest (braceLineGo i raw (raw.takeWhile (· ≠ '%')) 0 st)

/-- find_unmatched_open_braces: records for every opening brace that was
never closed, comments stripped per line at the first percent sign. -/
def find_unmatched_open_braces (t : Text) : List (Nat × Nat × Text) :=
  braceLines 1 (splitlines t) []

/-- Per-line contribution to the rough brace imbalance: the count of
opening minus closing braces before the first percent sign. -/
def lineImb (raw : Text) : Int :=
  let s := raw.takeWhile (· ≠ '%')
  (s.count '\x7b' : Int) - (s.count '\x7d' : Int)

/-- rough_brace_imbalance: the running total over all lines. -/
def rough_brace_imbalance (t : Text) : Int :=
  (splitlines t).foldl (fun tot raw => tot + lineImb raw) 0

/-- Modelled from the spec: the brace imbalance counted only up to the
first unescaped percent sign of each line, as the specification words
"text after an unescaped percent is ignored" describe; a percent
directly preceded by a backslash does not end the count.  The code under
test instead cuts each line at the first percent sign, escaped or not. -/
def stripUnescapedComment : Text → Text
  | [] => []
  | '\\' :: c :: cs => '\\' :: c :: stripUnescapedComment cs
  | '%' :: _ => []
  | c :: cs => c :: stripUnescapedComment cs

def specImbalanceUnescaped (t : Text) : Int :=
  (splitlines t).foldl
    (fun tot raw => tot + (((stripUnescapedComment raw).count '\x7b' : Int)
      - ((stripUnescapedComment raw).count '\x7d' : Int))) 0


/-- Does a line match the anchored regex for the document end marker:
optional whitespace, the end-document literal, optional whitespace. -/
def isEndDocLine (ln : Text) : Bool :=
  match stripPfx "\\end\x7bdocument\x7d".data (ln.dropWhile isSpaceChar) with
  | some r => (r.dropWhile isSpaceChar).isEmpty
  | none => false

/-- Index of the line before which material is inserted: the first line
matching the end-document regex, or the number of lines if none does. -/
def endDocIdx (lines : List Text) : Nat :=
  (findLineIdx isEndDocLine lines).getD lines.length

/-- auto_fix_braces: for a positive count, insert that many closing-brace
lines immediately before the end-document line (or at the end). -/
def auto_fix_braces (t : Text) (how_many : Int) : Text :=
  if how_many ≤ 0 then t
  else
    let lines := splitlines t
    let e := endDocIdx lines
    let lines' := lines.take e ++ List.replicate how_many.toNat ['\x7d'] ++ lines.drop e
    joinNL lines' ++ ['\n']

/-- The annotated characters of one comment-stripped line, with the
line number and one-based column recorded next to each character. -/
def annotGo (i : Nat) (raw : Text) : Text → Nat → List ((Nat × Nat × Text) × Char)
  | [], _ => []
  | c :: cs, col => ((i, col + 1, raw), c) :: annotGo i raw cs (col + 1)

/-- The annotated effective characters of the whole document. -/
def annotLines : Nat → List Text → List ((Nat × Nat × Text) × Char)
  | _, [] => []
  | i, raw :: rest =>
    annotGo i raw (raw.takeWhile (· ≠ '%')) 0 ++ annotLines (i + 1) rest

/-- The brace stack machine over an annotated character sequence: push the
annotation of each opening brace, pop the most recent one on a closing
brace, ignore a closing brace on an empty stack. -/
def processSeq {α : Type} : List (α × Char) → List α → List α
  | [], st => st
  | p :: rest, st =>
    if p.2 = '\x7b' then processSeq rest (st ++ [p.1])
    else if p.2 = '\x7d' then processSeq rest (if st.isEmpty then st else st.dropLast)
    else processSeq rest st

/-- The largest excess of closing over opening braces over any prefix of
the text; positive exactly when some prefix closes more braces than it
opens. -/
def maxExcess : Text → Nat
  | [] => 0
  | c :: cs =>
    if c = '\x7b' then maxExcess cs - 1
    else if c = '\x7d' then maxExcess cs + 1
    else maxExcess cs

/-- The declarative description of the hotspot list: an opening brace is
unmatched exactly when no later stretch of the text has an excess of
closing braces, and unmatched openings are kept in text order. -/
def specKeep {α : Type} : List (α × Char) → List α
  | [] => []
  | p :: rest =>
    (if p.2 = '\x7b' ∧ maxExcess (rest.map Prod.snd) = 0 then [p.1] else []) ++
      specKeep rest


example : envTokens beginKw "x\\begin\x7bitemize\x7d y\\begin\x7btabular*\x7d".data
    = ["itemize".data, "tabular*".data] := by decide
example : find_unmatched_open_braces "a\x7bb\x7bc\x7d".data
    = [(1, 2, "a\x7bb\x7bc\x7d".data)] := by decide
example : rough_brace_imbalance "a\x7bb \x7d\x7b % \x7b\n\x7b".data = 2 := by decide
example : isEndDocLine "  \\end\x7bdocument\x7d  ".data = true := by decide
example : auto_fix_braces "\x7b\x7b\n\\end\x7bdocument\x7d".data 2
    = "\x7b\x7b\n\x7d\n\x7d\n\\end\x7bdocument\x7d\n".data := by decide

-- ---------------------------------------------------------------------
-- Replace invocations of resume macros
-- ---------------------------------------------------------------------

def itemizeName : Text := "itemize".data

def beginItemize : Text := "\\begin\x7bitemize\x7d".data

def endItemize : Text := "\\end\x7bitemize\x7d".data

def itemKw : Text := "\\resumeItem\x7b".data

def subItemKw : Text := "\\resumeSubItem\x7b".data

/-- Match the item pattern at the head of the text: the keyword, a greedy
run of non-closing-brace characters, then a closing brace.  Returns the
captured argument and the total number of characters matched. -/
def matchItemAt (kw : Text) (s : Text) : Option (Text × Nat) :=
  match stripPfx kw s with
  | none => none
  | some r =>
    let x := r.takeWhile (· ≠ '\x7d')
    match r.drop x.length with
    | '\x7d' :: _ => some (x, kw.length + x.length + 1)
    | _ => none

/-- The stateful replacement _repl_item: synthesize a list begin when the
depth counter is zero (and increment it), otherwise just emit the item. -/
def replItem (d : Int) (x : Text) : Text × Int :=
  if d = 0 then (beginItemize ++ '\n' :: "\\item ".data ++ x, d + 1)
  else ("\\item ".data ++ x, d)

/-- re.sub of the item pattern with the stateful replacement, scanning
left to right over non-overlapping matches; the numeric argument counts
characters of the current match that remain to be skipped. -/
def subItemsGo (kw : Text) : Text → Nat → Int → Text × Int
  | [], _, d => ([], d)
  | _ :: cs, k + 1, d => subItemsGo kw cs k d
  | s@(c :: cs), 0, d =>
    match matchItemAt kw s with
    | some (x, n) =>
      let rd := replItem d x
      let od := subItemsGo kw cs (n - 1) rd.2
      (rd.1 ++ od.1, od.2)
    | none =>
      let od := subItemsGo kw cs 0 d
      (c :: od.1, od.2)

def subItems (kw : Text) (s : Text) (d : Int) : Text × Int := subItemsGo kw s 0 d

/-- One line of the loop in replace_invocations: literal replacements of
the list start and end macros, depth bookkeeping from every begin and end
marker on the line, then the two item substitutions. -/
def processLine (d : Int) (raw : Text) : Text × Int :=
  let ln := pyReplace raw "\\resumeSubHeadingListStart".data beginItemize
  let ln := pyReplace ln "\\resumeSubHeadingListEnd".data endItemize
  let ln := pyReplace ln "\\resumeItemListStart".data beginItemize
  let ln := pyReplace ln "\\resumeItemListEnd".data endItemize
  let d1 := (envTokens beginKw ln).foldl
    (fun dd nm => if nm = itemizeName then dd + 1 else dd) d
  let d2 := (envTokens endKw ln).foldl
    (fun dd nm => if nm = itemizeName ∧ 0 < dd then dd - 1 else dd) d1
  let p1 := subItems itemKw ln d2
  let p2 := subItems subItemKw p1.1 p1.2
  p2

def processLines : List Text → Int → List Text × Int
  | [], d => ([], d)
  | ln :: rest, d =>
    let p := processLine d ln
    let q := processLines rest p.2
    (p.1 :: q.1, q.2)

def shKw : Text := "\\resumeSubheading\x7b".data

def sepBrace2 : Text := "\x7d\x7b".data

/-- Minimal split at an occurrence of the separator: the prefix before the
first occurrence and the remainder after it.  This implements the lazy
captures of the subheading regex: each lazy group takes the least prefix
for which the rest of the pattern can still match, and a later group can
always absorb what an earlier one would have skipped, so taking the first
occurrence at every stage agrees with the backtracking semantics. -/
def splitOnSep (sep : Text) : Text → Option (Text × Text)
  | [] => none
  | s@(c :: cs) =>
    if hasPfx sep s then some ([], s.drop sep.length)
    else (splitOnSep sep cs).map (fun pr => (c :: pr.1, pr.2))

/-- The replacement text built by subheading_repl. -/
def shRepl (a b c d : Text) : Text :=
  "\\item \\textbf\x7b".data ++ a ++ "\x7d\\hfill\\textit\x7b".data ++ b ++
  "\x7d\\\\\\textit\x7b".data ++ c ++ "\x7d\\hfill\\textit\x7b".data ++ d ++ ['\x7d']

/-- Match the four-argument subheading pattern at the head of the text,
returning the replacement for the match and the unconsumed remainder. -/
def matchShAt (s : Text) : Option (Text × Text) :=
  match stripPfx shKw s with
  | none => none
  | some r0 =>
    match splitOnSep sepBrace2 r0 with
    | none => none
    | some (a, r1) =>
      match splitOnSep sepBrace2 r1 with
      | none => none
      | some (b, r2) =>
        match splitOnSep sepBrace2 r2 with
        | none => none
        | some (c, r3) =>
          match splitOnSep ['\x7d'] r3 with
          | none => none
          | some (d, rest) => some (shRepl a b c d, rest)

/-- re.sub of the subheading pattern over the whole text, scanning left to
right over non-overlapping matches. -/
def subShGo : Text → Nat → Text
  | [], _ => []
  | _ :: cs, k + 1 => subShGo cs k
  | s@(c :: cs), 0 =>
    match matchShAt s with
    | some (repl, rest) => repl ++ subShGo cs (s.length - rest.length - 1)
    | none => c :: subShGo cs 0

/-- replace_invocations: the per-line pass starting from depth zero, a
final newline, then the global subheading substitution. -/
def replace_invocations (t : Text) : Text :=
  let p := processLines (splitlines t) 0
  subShGo (joinNL p.1 ++ ['\n']) 0

example : replace_invocations "\\resumeItem\x7ba\x7d\\resumeItem\x7bb\x7d".data
    = "\\begin\x7bitemize\x7d\n\\item a\\item b\n".data := by decide
example : replace_invocations "\\begin\x7bitemize\x7d\n\\resumeItem\x7ba\x7d".data
    = "\\begin\x7bitemize\x7d\n\\item a\n".data := by decide
example : replace_invocations "\\resumeSubheading\x7ba\x7d\x7bb\x7d\x7bc\x7d\x7bd\x7d".data
    = ("\\item \\textbf\x7ba\x7d\\hfill\\textit\x7bb\x7d\\\\" ++
       "\\textit\x7bc\x7d\\hfill\\textit\x7bd\x7d\n").data := by decide
example : replace_invocations "\\resumeItemListStart\n\\resumeItem\x7bx\x7d\n\\resumeItemListEnd".data
    = "\\begin\x7bitemize\x7d\n\\item x\n\\end\x7bitemize\x7d\n".data := by decide

-- ---------------------------------------------------------------------
-- Balance environments
-- ---------------------------------------------------------------------

/-- State of the balance_envs scan: the stack of open environments with
the most recently opened one first, and the recorded unmatched ends. -/
structure BalSt where
  stack : List (Text × Nat)
  unmatched : List (Text × Nat)

/-- A line is skipped when, stripped of leading whitespace, it starts
with a percent sign. -/
def is_commented (ln : Text) : Bool :=
  (ln.dropWhile isSpaceChar).head? = some '%'

/-- Push the begin markers of one line in scan order; the most recently
pushed name is the head of the stack. -/
def pushBegins (i : Nat) (names : List Text) (st : List (Text × Nat)) :
    List (Text × Nat) :=
  names.foldl (fun s nm => (nm, i) :: s) st

/-- Process one end marker: pop when it names the top of the stack,
otherwise record it as unmatched. -/
def procEnd (st : BalSt) (i : Nat) (nm : Text) : BalSt :=
  match st.stack with
  | (top, j) :: rest =>
    if top = nm then ⟨rest, st.unmatched⟩
    else ⟨(top, j) :: rest, st.unmatched ++ [(nm, i)]⟩
  | [] => ⟨[], st.unmatched ++ [(nm, i)]⟩

def trackedBegins (ln : Text) : List Text :=
  (envTokens beginKw ln).filter (fun nm => decide (nm ∈ BALANCE_ENVS))

def trackedEnds (ln : Text) : List Text :=
  (envTokens endKw ln).filter (fun nm => decide (nm ∈ BALANCE_ENVS))

/-- The scan of one line: skipped when commented, otherwise all tracked
begins are pushed and then all tracked ends are processed. -/
def scanLine (i : Nat) (st : BalSt) (ln : Text) : BalSt :=
  if is_commented ln then st
  else
    let st1 : BalSt := ⟨pushBegins i (trackedBegins ln) st.stack, st.unmatched⟩
    (trackedEnds ln).foldl (fun s nm => procEnd s i nm) st1

def scanLinesFrom : Nat → List Text → BalSt → BalSt
  | _, [], st => st
  | i, ln :: rest, st => scanLinesFrom (i + 1) rest (scanLine i st ln)

/-- The closing marker synthesized for one remaining stack entry. -/
def closerOf (p : Text × Nat) : Text := "\\end\x7b".data ++ p.1 ++ ['\x7d']

/-- balance_envs: scan, then insert one closer per remaining stack entry,
innermost first, before the end-document line.  Returns the new text,
the number of inserted closers, and the number of unmatched ends. -/
def balance_envs (t : Text) : Text × Nat × Nat :=
  let lines := splitlines t
  let st := scanLinesFrom 1 lines ⟨[], []⟩
  let e := endDocIdx lines
  let inserts := st.stack.map closerOf
  let lines' := if inserts.isEmpty then lines
                else lines.take e ++ inserts ++ lines.drop e
  (joinNL lines' ++ ['\n'], inserts.length, st.unmatched.length)

example : (balance_envs "\\begin\x7bitemize\x7d\nx\n\\end\x7bdocument\x7d".data).1
    = "\\begin\x7bitemize\x7d\nx\n\\end\x7bitemize\x7d\n\\end\x7bdocument\x7d\n".data := by
  decide
example : (balance_envs "\\begin\x7bcenter\x7d\\begin\x7bquote\x7d".data).1
    = "\\begin\x7bcenter\x7d\\begin\x7bquote\x7d\n\\end\x7bquote\x7d\n\\end\x7bcenter\x7d\n".data := by
  decide
example : (balance_envs "\\end\x7bcenter\x7d".data).2.2 = 1 := by decide

/-- A line is inert for the scan when it is commented or carries no
tracked begin or end marker. -/
def inertLine (ln : Text) : Prop :=
  is_commented ln = true ∨ (trackedBegins ln = [] ∧ trackedEnds ln = [])

instance (ln : Text) : Decidable (inertLine ln) := by
  unfold inertLine
  infer_instance


-- ---------------------------------------------------------------------
-- Ensure list items
-- ---------------------------------------------------------------------

def isBeginListLine (ln : Text) : Bool :=
  containsSub "\\begin\x7bitemize\x7d".data ln ||
  containsSub "\\begin\x7benumerate\x7d".data ln

def isEndListLine (ln : Text) : Bool :=
  containsSub "\\end\x7bitemize\x7d".data ln ||
  containsSub "\\end\x7benumerate\x7d".data ln

/-- A line matching the anchored item regex: optional whitespace, the
item keyword, then a word boundary. -/
def isItemLine (ln : Text) : Bool :=
  match stripPfx "\\item".data (ln.dropWhile isSpaceChar) with
  | some r =>
    match r.head? with
    | some c => !isWordChar c
    | none => true
  | none => false

/-- The inner scan of ensure_list_items: walk forward until the first end
line of either tracked kind, looking for an item line on the way. -/
def windowHasItem : List Text → Bool
  | [] => false
  | ln :: rest =>
    if isEndListLine ln then false
    else if isItemLine ln then true
    else windowHasItem rest

def itemLine : Text := "\\item".data

/-- The index loop of ensure_list_items, with in-place insertion of an
empty item line after a begin line whose window has no item; the index
then skips past the inserted line. -/
def ensureLoop (lines : List Text) (i : Nat) : List Text :=
  if h : i < lines.length then
    let ln := lines.get ⟨i, h⟩
    if isBeginListLine ln then
      if windowHasItem (lines.drop (i + 1)) then ensureLoop lines (i + 1)
      else ensureLoop (lines.take (i + 1) ++ itemLine :: lines.drop (i + 1)) (i + 2)
    else ensureLoop lines (i + 1)
  else lines
termination_by lines.length - i
decreasing_by
  all_goals
    first
    | omega
    | · simp only [List.length_append, List.length_take, List.length_cons,
          List.length_drop]
        omega

def ensure_list_items (t : Text) : Text :=
  joinNL (ensureLoop (splitlines t) 0) ++ ['\n']

/-- The per-suffix characterization of the loop: a begin line whose
original window has no item line gains exactly one item line after it. -/
def specEnsure : List Text → List Text
  | [] => []
  | ln :: rest =>
    (if isBeginListLine ln ∧ ¬ windowHasItem rest then [ln, itemLine]
     else [ln]) ++ specEnsure rest

-- ---------------------------------------------------------------------
-- Guard glyphtounicode
-- ---------------------------------------------------------------------

def guardLit : Text := "\\input\x7bglyphtounicode".data

def guardRepl : Text :=
  "\\InputIfFileExists\x7bglyphtounicode.tex\x7d\x7b\x7d\x7b\x7d % guarded for Pandoc".data

/-- Match the guarded-input pattern at the head of the text, anchored at a
line start: greedy whitespace, the input literal, an optional .tex, the
closing brace, then greedy whitespace up to a line end.  Returns the
number of characters consumed by the match.  With the multiline flag the
dollar anchor matches at the end of the text or just before a newline, so
the trailing whitespace run backtracks to its last contained newline. -/
def matchGuardAt (s : Text) : Option Nat :=
  let w1 := s.takeWhile isSpaceChar
  let r1 := s.drop w1.length
  match stripPfx guardLit r1 with
  | none => none
  | some r2 =>
    let texLen := if hasPfx ".tex".data r2 then 4 else 0
    match r2.drop texLen with
    | '\x7d' :: r4 =>
      let w2 := r4.takeWhile isSpaceChar
      let base := w1.length + guardLit.length + texLen + 1
      if (r4.drop w2.length).isEmpty then some (base + w2.length)
      else
        match lastIdxOf '\n' w2 with
        | some q => some (base + q)
        | none => none
    | _ => none

/-- The multiline re.sub scan: replace every match anchored at a line
start, scanning left to right.  The boolean records whether the current
position is at the start of a line. -/
def guardGo : Text → Nat → Bool → Text
  | [], _, _ => []
  | c :: cs, k + 1, _ => guardGo cs k (c = '\n')
  | c :: cs, 0, atStart =>
    if atStart then
      match matchGuardAt (c :: cs) with
      | some n => guardRepl ++ guardGo cs (n - 1) (c = '\n')
      | none => c :: guardGo cs 0 (c = '\n')
    else c :: guardGo cs 0 (c = '\n')

def guard_glyphtounicode (t : Text) : Text := guardGo t 0 true

example : guard_glyphtounicode "a\n \\input\x7bglyphtounicode.tex\x7d \nb".data
    = ("a\n".data ++ guardRepl ++ "\nb".data) := by decide
example : guard_glyphtounicode "x \\input\x7bglyphtounicode\x7d".data
    = "x \\input\x7bglyphtounicode\x7d".data := by decide

-- ---------------------------------------------------------------------
-- Block-aware stripping of macro definitions
-- ---------------------------------------------------------------------

/-- The alternatives of RE_CMD_START, without the leading backslash. -/
def cmdKws : List Text :=
  ["newcommand".data, "renewcommand".data, "providecommand".data, "def".data]

/-- Does this keyword match here, including the trailing word boundary. -/
def kwAt (t : Text) (kw : Text) : Bool :=
  hasPfx kw t &&
    match (t.drop kw.length).head? with
    | some c => !isWordChar c
    | none => true

/-- Match RE_CMD_START at the head of the text: a backslash followed by
one of the defining keywords and a word boundary.  Returns the length of
the match.  No two keywords can match at the same position. -/
def cmdMatchLen : Text → Option Nat
  | '\\' :: t => (cmdKws.find? (kwAt t)).map (fun kw => 1 + kw.length)
  | _ => none

/-- re.search for RE_CMD_START: offset of the first match and its
length. -/
def searchCmd : Text → Option (Nat × Nat)
  | [] => none
  | s@(_ :: cs) =>
    match cmdMatchLen s with
    | some n => some (0, n)
    | none => (searchCmd cs).map (fun p => (p.1 + 1, p.2))

/-- Does the header window contain one of the MACRO_NAME_PATTERNS: a
resume macro name, a literal itemize begin or end, or labelitemi. -/
def hasResumeRef : Text → Bool
  | [] => false
  | s@(_ :: cs) =>
    (match stripPfx "\\resume".data s with
     | some (c :: _) => c.isAlpha
     | _ => false) || hasResumeRef cs

def _should_strip_definition (header : Text) : Bool :=
  hasResumeRef header ||
  containsSub "\\begin\x7bitemize\x7d".data header ||
  containsSub "\\end\x7bitemize\x7d".data header ||
  containsSub "\\labelitemi".data header

/-- The depth loop of _skip_balanced, carried out on the suffix starting
at the opening character; the second numeric argument is the absolute
index of the current character. -/
def skipBalGo (oc cc : Char) : Int → Text → Nat → Nat
  | _, [], j => j
  | depth, c :: cs, j =>
    if c = oc then skipBalGo oc cc (depth + 1) cs (j + 1)
    else if c = cc then
      if depth - 1 = 0 then j + 1 else skipBalGo oc cc (depth - 1) cs (j + 1)
    else skipBalGo oc cc depth cs (j + 1)

/-- _skip_balanced: from an opening character at the given index, the
index just past its matching close, or the text length when unbalanced;
the index itself when it does not hold the opening character. -/
def _skip_balanced (src : Text) (idx : Nat) (oc cc : Char) : Nat :=
  if (src.drop idx).head? = some oc then skipBalGo oc cc 0 (src.drop idx) idx
  else idx

/-- Advance an absolute index over the characters satisfying the
predicate, as the small while loops of _strip_one_definition do. -/
def skipIdxWhile (p : Char → Bool) (src : Text) (i : Nat) : Nat :=
  i + ((src.drop i).takeWhile p).length

/-- Absolute index of the first occurrence of a character at or after the
given index, as str.find does. -/
def findCharFrom (c : Char) (src : Text) (i : Nat) : Option Nat :=
  (findIdxFrom (· = c) (src.drop i)).map (i + ·)

def marker : Text := "% (stripped macro definition)\n".data

/-- Step over the optional brace-wrapped name, or the def-style name with
its parameter tokens, of one definition. -/
def headerName (src : Text) (i1 : Nat) : Nat :=
  if (src.drop i1).head? = some '\x7b' then _skip_balanced src i1 '\x7b' '\x7d'
  else if (src.drop i1).head? = some '\\' then
    skipIdxWhile (fun c => decide (c ∈ " #0123456789".data)) src
      (skipIdxWhile (fun c => c.isAlpha || c = '@') src (i1 + 1))
  else i1

/-- Step over the optional bracketed argument count. -/
def headerOptArg (src : Text) (i3 : Nat) : Nat :=
  if (src.drop i3).head? = some '[' then _skip_balanced src i3 '[' ']'
  else i3

/-- End of the header of one definition: past the name, the optional
argument count, and surrounding whitespace. -/
def headerEnd (src : Text) (i0 : Nat) : Nat :=
  skipIdxWhile isSpaceChar src
    (headerOptArg src
      (skipIdxWhile isSpaceChar src
        (headerName src (skipIdxWhile isSpaceChar src i0))))

/-- End of the line containing the given index: one past the next
newline, or the text length when there is none. -/
def lineEndAfter (src : Text) (i : Nat) : Nat :=
  match findCharFrom '\n' src i with
  | some j => j + 1
  | none => src.length

/-- _strip_one_definition: replace the span from the match through the
end of the balanced body (or through end of line when no body brace is
found) with the marker comment; returns the new text and the next scan
index. -/
def _strip_one_definition (src : Text) (start_idx : Nat) : Text × Nat :=
  match cmdMatchLen (src.drop start_idx) with
  | none => (src, start_idx + 1)
  | some mlen =>
    let i0 := start_idx + mlen
    if ¬ _should_strip_definition ((src.drop start_idx).take (mlen + 400)) then
      (src, i0)
    else
      let i5 := headerEnd src i0
      if src.length ≤ i5 then
        (src.take start_idx ++ marker ++ src.drop (lineEndAfter src start_idx),
         start_idx + 1)
      else if (src.drop i5).head? ≠ some '\x7b' then
        match findCharFrom '\x7b' src i5 with
        | none =>
          (src.take start_idx ++ marker ++ src.drop (lineEndAfter src i5),
           start_idx + 1)
        | some j =>
          (src.take start_idx ++ marker ++
             src.drop (_skip_balanced src j '\x7b' '\x7d'), start_idx + 1)
      else
        (src.take start_idx ++ marker ++
           src.drop (_skip_balanced src i5 '\x7b' '\x7d'), start_idx + 1)

example : _strip_one_definition "\\newcommand\x7b\\resumeItem\x7d[1]\x7bA\x7bB\x7dC\x7d tail".data 0
    = (marker ++ " tail".data, 1) := by decide
example : _strip_one_definition "\\def\\resumeX q\n\x7bbody\x7d".data 0 = (marker, 1) := by decide
example : _strip_one_definition "\\def\\labelitemi".data 0 = (marker, 1) := by decide
example : _strip_one_definition "\\newcommand\x7b\\foo\x7d\x7bx\x7d".data 0
    = ("\\newcommand\x7b\\foo\x7d\x7bx\x7d".data, 11) := by decide

/-- Number of positions (suffixes) at which RE_CMD_START matches; the
termination measure of the strip_macro_definitions loop. -/
def countCmd : Text → Nat
  | [] => 0
  | s@(_ :: cs) => (if (cmdMatchLen s).isSome then 1 else 0) + countCmd cs

theorem countCmd_tail_le (c : Char) (cs : Text) : countCmd cs ≤ countCmd (c :: cs) := by
  simp only [countCmd]
  omega

theorem countCmd_drop_le (s : Text) : ∀ k, countCmd (s.drop k) ≤ countCmd s := by
  induction s with
  | nil => intro k; simp
  | cons c cs ih =>
    intro k
    cases k with
    | zero => simp
    | succ k =>
      calc countCmd ((c :: cs).drop (k + 1)) = countCmd (cs.drop k) := rfl
        _ ≤ countCmd cs := ih k
        _ ≤ countCmd (c :: cs) := countCmd_tail_le c cs

theorem countCmd_drop_mono (s : Text) {a b : Nat} (h : a ≤ b) :
    countCmd (s.drop b) ≤ countCmd (s.drop a) := by
  have : s.drop b = (s.drop a).drop (b - a) := by
    rw [List.drop_drop]
    congr 1
    omega
  rw [this]
  exact countCmd_drop_le (s.drop a) (b - a)

theorem cmdMatchLen_ne_nil {s : Text} (h : (cmdMatchLen s).isSome) : s ≠ [] := by
  intro he
  subst he
  simp [cmdMatchLen] at h

theorem cmdMatchLen_pos {s : Text} {n : Nat} (h : cmdMatchLen s = some n) : 1 ≤ n := by
  match s with
  | [] => simp [cmdMatchLen] at h
  | c :: t =>
    by_cases hc : c = '\\'
    · subst hc
      simp only [cmdMatchLen, Option.map_eq_some'] at h
      obtain ⟨kw, _, hk⟩ := h
      omega
    · have : cmdMatchLen (c :: t) = none := by
        unfold cmdMatchLen
        split
        · simp_all
        · rfl
      rw [this] at h
      exact absurd h (by simp)

theorem cmdMatchLen_not_bs {c : Char} (hc : c ≠ '\\') (t : Text) :
    cmdMatchLen (c :: t) = none := by
  unfold cmdMatchLen
  split
  · simp_all
  · rfl

theorem countCmd_cons_match {s : Text} {n : Nat} (h : cmdMatchLen s = some n) :
    countCmd s = 1 + countCmd s.tail := by
  match s with
  | [] => simp [cmdMatchLen] at h
  | c :: t => simp [countCmd, h]

theorem countCmd_no_bs_append {P : Text} (hP : ∀ c ∈ P, c ≠ '\\') (t : Text) :
    countCmd (P ++ t) = countCmd t := by
  induction P with
  | nil => simp
  | cons c cs ih =>
    have hc : c ≠ '\\' := hP c (List.mem_cons_self c cs)
    have hcs : ∀ x ∈ cs, x ≠ '\\' := fun x hx => hP x (List.mem_cons_of_mem c hx)
    simp only [List.cons_append, countCmd, cmdMatchLen_not_bs hc, Option.isSome_none,
      Bool.false_eq_true, if_false, Nat.zero_add]
    exact ih hcs

theorem searchCmd_spec {s : Text} {off n : Nat} (h : searchCmd s = some (off, n)) :
    countCmd s = countCmd (s.drop off) ∧ cmdMatchLen (s.drop off) = some n := by
  induction s generalizing off n with
  | nil => simp [searchCmd] at h
  | cons c cs ih =>
    cases hm : cmdMatchLen (c :: cs) with
    | some m =>
      simp only [searchCmd, hm, Option.some.injEq, Prod.mk.injEq] at h
      obtain ⟨h1, h2⟩ := h
      subst h1
      subst h2
      exact ⟨rfl, hm⟩
    | none =>
      simp only [searchCmd, hm, Option.map_eq_some'] at h
      obtain ⟨⟨off', n'⟩, hsc, heq⟩ := h
      have h1 : off' + 1 = off := congrArg Prod.fst heq
      have h2 : n' = n := congrArg Prod.snd heq
      subst h1
      subst h2
      have hih := ih hsc
      constructor
      · have hdrop : (c :: cs).drop (off' + 1) = cs.drop off' := rfl
        rw [hdrop]
        simpa [countCmd, hm] using hih.1
      · exact hih.2

theorem marker_no_bs : ∀ c ∈ marker, c ≠ '\\' := by decide

theorem skipBalGo_ge (oc cc : Char) : ∀ (d : Int) (s : Text) (j : Nat),
    j ≤ skipBalGo oc cc d s j := by
  intro d s
  induction s generalizing d with
  | nil => intro j; simp [skipBalGo]
  | cons c cs ih =>
    intro j
    simp only [skipBalGo]
    split
    · exact le_trans (Nat.le_succ j) (ih _ _)
    · split
      · split
        · omega
        · exact le_trans (Nat.le_succ j) (ih _ _)
      · exact le_trans (Nat.le_succ j) (ih _ _)

theorem skip_balanced_gt {src : Text} {idx : Nat} {oc cc : Char}
    (h : (src.drop idx).head? = some oc) : idx + 1 ≤ _skip_balanced src idx oc cc := by
  unfold _skip_balanced
  rw [if_pos h]
  match hd : src.drop idx with
  | [] =>
    rw [hd] at h
    simp at h
  | c :: cs =>
    rw [hd] at h
    have hc : c = oc := by simpa using h
    simp only [skipBalGo, hc, if_pos rfl]
    exact skipBalGo_ge oc cc _ cs (idx + 1)

theorem skipIdxWhile_ge (p : Char → Bool) (src : Text) (i : Nat) :
    i ≤ skipIdxWhile p src i := Nat.le_add_right i _

theorem findCharFrom_ge {c : Char} {src : Text} {i j : Nat}
    (h : findCharFrom c src i = some j) : i ≤ j := by
  unfold findCharFrom at h
  obtain ⟨k, _, hk⟩ := Option.map_eq_some'.mp h
  omega

theorem headerName_ge (src : Text) (i1 : Nat) : i1 ≤ headerName src i1 := by
  unfold headerName
  split
  · exact le_trans (Nat.le_succ _) (skip_balanced_gt (by assumption))
  · split
    · refine le_trans (Nat.le_succ _) ?_
      exact le_trans (skipIdxWhile_ge _ src _) (skipIdxWhile_ge _ src _)
    · exact le_refl _

theorem headerOptArg_ge (src : Text) (i3 : Nat) : i3 ≤ headerOptArg src i3 := by
  unfold headerOptArg
  split
  · exact le_trans (Nat.le_succ _) (skip_balanced_gt (by assumption))
  · exact le_refl _

theorem headerEnd_ge (src : Text) (i0 : Nat) : i0 ≤ headerEnd src i0 :=
  calc i0 ≤ skipIdxWhile isSpaceChar src i0 := skipIdxWhile_ge _ _ _
    _ ≤ headerName src _ := headerName_ge _ _
    _ ≤ skipIdxWhile isSpaceChar src _ := skipIdxWhile_ge _ _ _
    _ ≤ headerOptArg src _ := headerOptArg_ge _ _
    _ ≤ skipIdxWhile isSpaceChar src _ := skipIdxWhile_ge _ _ _

theorem drop_ne_nil_of_match {src : Text} {p n : Nat}
    (h : cmdMatchLen (src.drop p) = some n) : p < src.length := by
  by_contra hc
  push_neg at hc
  rw [List.drop_of_length_le hc] at h
  simp [cmdMatchLen] at h

theorem lineEndAfter_gt {src : Text} {i : Nat} (hi : i < src.length) :
    i + 1 ≤ lineEndAfter src i := by
  unfold lineEndAfter
  split
  · next j hj => exact Nat.succ_le_succ (findCharFrom_ge hj)
  · exact hi

theorem findIdxFrom_spec {p : Char → Bool} {s : Text} {k : Nat}
    (h : findIdxFrom p s = some k) :
    ∃ c, (s.drop k).head? = some c ∧ p c := by
  induction s generalizing k with
  | nil => simp [findIdxFrom] at h
  | cons c cs ih =>
    simp only [findIdxFrom] at h
    by_cases hc : p c
    · rw [if_pos hc] at h
      obtain rfl : (0 : Nat) = k := by simpa using h
      exact ⟨c, rfl, hc⟩
    · rw [if_neg hc] at h
      obtain ⟨k', hk1, hk2⟩ := Option.map_eq_some'.mp h
      subst hk2
      exact ih hk1

theorem findCharFrom_head {c : Char} {src : Text} {i j : Nat}
    (h : findCharFrom c src i = some j) : (src.drop j).head? = some c := by
  unfold findCharFrom at h
  obtain ⟨k, hk1, hk2⟩ := Option.map_eq_some'.mp h
  subst hk2
  obtain ⟨c', hc1, hc2⟩ := findIdxFrom_spec hk1
  have hd : (src.drop i).drop k = src.drop (i + k) := by
    rw [List.drop_drop]
  rw [hd] at hc1
  have : c' = c := by simpa using hc2
  rw [← this]
  exact hc1

/-- Either the definition is left untouched with the scan advanced past
the match, or a span starting at the match and reaching at least one
character further is replaced by the marker. -/
theorem strip_one_spec {src : Text} {p n : Nat}
    (h : cmdMatchLen (src.drop p) = some n) :
    _strip_one_definition src p = (src, p + n) ∨
    ∃ e, p + 1 ≤ e ∧
      _strip_one_definition src p = (src.take p ++ marker ++ src.drop e, p + 1) := by
  have hp : p < src.length := drop_ne_nil_of_match h
  unfold _strip_one_definition
  rw [h]
  dsimp only
  split
  · exact Or.inl rfl
  · split
    · exact Or.inr ⟨lineEndAfter src p, lineEndAfter_gt hp, rfl⟩
    · next hlen =>
      push_neg at hlen
      split
      · split
        · refine Or.inr ⟨lineEndAfter src (headerEnd src (p + n)), ?_, rfl⟩
          have h5 := headerEnd_ge src (p + n)
          have h6 := @lineEndAfter_gt src (headerEnd src (p + n)) hlen
          omega
        · next j hj =>
          refine Or.inr ⟨_skip_balanced src j '\x7b' '\x7d', ?_, rfl⟩
          have hjge : headerEnd src (p + n) ≤ j := findCharFrom_ge hj
          have hjc : (src.drop j).head? = some '\x7b' := findCharFrom_head hj
          have h1 := @skip_balanced_gt src j '\x7b' '\x7d' hjc
          have h2 := headerEnd_ge src (p + n)
          omega
      · next hne =>
        push_neg at hne
        refine Or.inr ⟨_skip_balanced src (headerEnd src (p + n)) '\x7b' '\x7d', ?_, rfl⟩
        have h1 := @skip_balanced_gt src (headerEnd src (p + n)) '\x7b' '\x7d' hne
        have h2 := headerEnd_ge src (p + n)
        omega

theorem search_shift {src : Text} {i off len : Nat}
    (hs : searchCmd (src.drop i) = some (off, len)) :
    countCmd (src.drop i) = countCmd (src.drop (i + off)) ∧
    cmdMatchLen (src.drop (i + off)) = some len := by
  have h1 := searchCmd_spec hs
  rwa [List.drop_drop] at h1

theorem stripLoop_dec_skip {src : Text} {i off len : Nat}
    (hs : searchCmd (src.drop i) = some (off, len)) :
    countCmd (src.drop (i + off + len)) < countCmd (src.drop i) := by
  obtain ⟨heq, hm⟩ := search_shift hs
  have hlen1 : 1 ≤ len := cmdMatchLen_pos hm
  have hstep := countCmd_cons_match hm
  rw [List.tail_drop] at hstep
  have hmono : countCmd (src.drop (i + off + len)) ≤ countCmd (src.drop (i + off + 1)) :=
    countCmd_drop_mono src (by omega)
  omega

theorem stripLoop_dec_strip {src : Text} {i off len : Nat}
    (hs : searchCmd (src.drop i) = some (off, len)) :
    countCmd ((_strip_one_definition src (i + off)).1.drop
      ((_strip_one_definition src (i + off)).2)) < countCmd (src.drop i) := by
  obtain ⟨heq, hm⟩ := search_shift hs
  have hlen1 : 1 ≤ len := cmdMatchLen_pos hm
  have hstep := countCmd_cons_match hm
  rw [List.tail_drop] at hstep
  have hp : i + off < src.length := drop_ne_nil_of_match hm
  rcases strip_one_spec hm with hr | ⟨e, he, hr⟩
  · rw [hr]
    exact stripLoop_dec_skip hs
  · rw [hr]
    have hA : (src.take (i + off)).length = i + off := by
      rw [List.length_take]
      omega
    have hd1 : (src.take (i + off) ++ (marker ++ src.drop e)).drop (i + off + 1)
        = (marker ++ src.drop e).drop 1 :=
      calc (src.take (i + off) ++ (marker ++ src.drop e)).drop (i + off + 1)
          = (src.take (i + off) ++ (marker ++ src.drop e)).drop
              ((src.take (i + off)).length + 1) := by rw [hA]
        _ = (marker ++ src.drop e).drop 1 := List.drop_append 1
    have hd2 : (marker ++ src.drop e).drop 1 = marker.drop 1 ++ src.drop e :=
      List.drop_append_of_le_length (by simp [marker])
    have hnb : ∀ c ∈ marker.drop 1, c ≠ '\\' := by decide
    have hd3 : countCmd (marker.drop 1 ++ src.drop e) = countCmd (src.drop e) :=
      countCmd_no_bs_append hnb _
    have hmono : countCmd (src.drop e) ≤ countCmd (src.drop (i + off + 1)) :=
      countCmd_drop_mono src he
    calc countCmd ((src.take (i + off) ++ marker ++ src.drop e).drop (i + off + 1))
        = countCmd ((marker ++ src.drop e).drop 1) := by rw [List.append_assoc, hd1]
      _ = countCmd (src.drop e) := by rw [hd2, hd3]
      _ ≤ countCmd (src.drop (i + off + 1)) := hmono
      _ < countCmd (src.drop i) := by omega

/-- The scan loop of strip_macro_definitions.  Its termination measure is
the number of remaining RE_CMD_START match positions: skipping a match
removes it, and stripping replaces the span from the match on by the
marker comment, which contains no backslash and so no new match. -/
def stripLoop (src : Text) (i : Nat) : Text :=
  match hs : searchCmd (src.drop i) with
  | none => src
  | some (off, len) =>
    if _should_strip_definition ((src.drop (i + off)).take 500) then
      stripLoop (_strip_one_definition src (i + off)).1
        (_strip_one_definition src (i + off)).2
    else stripLoop src (i + off + len)
termination_by countCmd (src.drop i)
decreasing_by
  · exact stripLoop_dec_strip hs
  · exact stripLoop_dec_skip hs

def strip_macro_definitions (t : Text) : Text := stripLoop t 0

-- ---------------------------------------------------------------------
-- Lines produced by splitlines are free of line breaks, and joining them
-- with newlines and splitting again recovers them.
-- ---------------------------------------------------------------------

/-- The unfolding of splitlines at a non-break head character. -/
theorem splitlines_cons_nb {c : Char} (hc : isLineBreakChar c = false) (cs : Text) :
    splitlines (c :: cs) =
      match splitlines cs with
      | [] => [[c]]
      | l :: ls => (c :: l) :: ls := by
  rw [splitlines]
  · rw [if_neg (by simp [hc])]
  · intro cs' hcr hcs
    subst hcr
    simp [isLineBreakChar] at hc

theorem splitlines_no_break : ∀ (t : Text), ∀ l ∈ splitlines t, ∀ c ∈ l,
    isLineBreakChar c = false := by
  intro t
  induction t using splitlines.induct with
  | case1 => intro l hl; simp [splitlines] at hl
  | case2 cs ih =>
    intro l hl
    rw [show splitlines ('\r' :: '\n' :: cs) = [] :: splitlines cs from rfl] at hl
    rcases List.mem_cons.mp hl with h | h
    · subst h; intro c hc; simp at hc
    · exact ih l h
  | case3 c cs hne hbr ih =>
    intro l hl
    rw [splitlines] at hl
    · rw [if_pos hbr] at hl
      rcases List.mem_cons.mp hl with h | h
      · subst h; intro x hx; simp at hx
      · exact ih l h
    · intro cs' h1 h2
      exact hne cs' h1 h2
  | case4 c cs hne hbr hsp ih =>
    intro l hl
    rw [splitlines_cons_nb (by simpa using hbr), hsp] at hl
    obtain rfl : l = [c] := by simpa using hl
    intro x hx
    obtain rfl : x = c := by simpa using hx
    simpa using hbr
  | case5 c cs hne hbr l0 ls hsp ih =>
    intro l hl
    rw [splitlines_cons_nb (by simpa using hbr), hsp] at hl
    rcases List.mem_cons.mp hl with h | h
    · subst h
      intro x hx
      rcases List.mem_cons.mp hx with hx | hx
      · subst hx; simpa using hbr
      · exact ih l0 (by rw [hsp]; exact List.mem_cons_self _ _) x hx
    · exact ih l (by rw [hsp]; exact List.mem_cons_of_mem _ h)

theorem splitlines_cons_line {l : Text} (hl : ∀ c ∈ l, isLineBreakChar c = false) :
    ∀ t, splitlines (l ++ '\n' :: t) = l :: splitlines t := by
  induction l with
  | nil =>
    intro t
    rfl
  | cons c cs ih =>
    intro t
    have hc : isLineBreakChar c = false := hl c (List.mem_cons_self c cs)
    have hcs : ∀ x ∈ cs, isLineBreakChar x = false :=
      fun x hx => hl x (List.mem_cons_of_mem c hx)
    have hrec := ih hcs t
    rw [List.cons_append, splitlines_cons_nb hc, hrec]

theorem splitlines_join {ls : List Text} (h : ∀ l ∈ ls, ∀ c ∈ l, isLineBreakChar c = false)
    (hne : ls ≠ []) : splitlines (joinNL ls ++ ['\n']) = ls := by
  induction ls with
  | nil => exact absurd rfl hne
  | cons l rest ih =>
    cases rest with
    | nil =>
      have hl := h l (List.mem_cons_self l [])
      calc splitlines (joinNL [l] ++ ['\n']) = splitlines (l ++ '\n' :: []) := rfl
        _ = l :: splitlines [] := splitlines_cons_line hl []
        _ = [l] := rfl
    | cons m rest' =>
      have hl := h l (List.mem_cons_self l _)
      have hr : ∀ x ∈ m :: rest', ∀ c ∈ x, isLineBreakChar c = false :=
        fun x hx => h x (List.mem_cons_of_mem l hx)
      have hjoin : joinNL (l :: m :: rest') ++ ['\n']
          = l ++ '\n' :: (joinNL (m :: rest') ++ ['\n']) := by
        simp [joinNL]
      rw [hjoin, splitlines_cons_line hl, ih hr (by simp)]

-- ---------------------------------------------------------------------
-- The index loop of ensure_list_items computes the per-suffix insertion
-- ---------------------------------------------------------------------

theorem ensureLoop_spec : ∀ (suf pre : List Text),
    ensureLoop (pre ++ suf) pre.length = pre ++ specEnsure suf := by
  intro suf
  induction suf with
  | nil =>
    intro pre
    rw [ensureLoop, dif_neg (by simp)]
    simp [specEnsure]
  | cons ln rest ih =>
    intro pre
    have hlen : pre.length < (pre ++ ln :: rest).length := by simp
    have hget : (pre ++ ln :: rest).get ⟨pre.length, hlen⟩ = ln := by
      rw [List.get_eq_getElem, List.getElem_append_right (le_refl pre.length)]
      simp
    have hdrop : (pre ++ ln :: rest).drop (pre.length + 1) = rest := by
      have := @List.drop_append _ pre (ln :: rest) 1
      simpa using this
    have htake : (pre ++ ln :: rest).take (pre.length + 1) = pre ++ [ln] := by
      have := @List.take_append _ pre (ln :: rest) 1
      simpa using this
    rw [ensureLoop, dif_pos hlen]
    simp only [hget, hdrop, htake]
    by_cases hb : isBeginListLine ln
    · by_cases hw : windowHasItem rest
      · rw [if_pos hb, if_pos hw]
        have h1 : pre.length + 1 = (pre ++ [ln]).length := by simp
        have h2 : pre ++ ln :: rest = (pre ++ [ln]) ++ rest := by simp
        rw [h1, h2, ih (pre ++ [ln])]
        rw [specEnsure, if_neg (by simp [hw])]
        simp
      · rw [if_pos hb, if_neg hw]
        have h1 : pre.length + 2 = (pre ++ [ln, itemLine]).length := by simp
        have h2 : (pre ++ [ln]) ++ itemLine :: rest = (pre ++ [ln, itemLine]) ++ rest := by
          simp
        rw [h1, h2, ih (pre ++ [ln, itemLine])]
        rw [specEnsure, if_pos (by exact ⟨hb, hw⟩)]
        simp
    · rw [if_neg hb]
      have h1 : pre.length + 1 = (pre ++ [ln]).length := by simp
      have h2 : pre ++ ln :: rest = (pre ++ [ln]) ++ rest := by simp
      rw [h1, h2, ih (pre ++ [ln])]
      rw [specEnsure, if_neg (by simp [hb])]
      simp

theorem ensure_list_items_eq_spec (t : Text) :
    ensure_list_items t = joinNL (specEnsure (splitlines t)) ++ ['\n'] := by
  unfold ensure_list_items
  have h := ensureLoop_spec (splitlines t) []
  simp only [List.nil_append, List.length_nil] at h
  rw [h]

-- ---------------------------------------------------------------------
-- Specification of the brace hotspot scan: a recorded opening brace is
-- kept exactly when no later stretch of the effective text closes more
-- braces than it opens.
-- ---------------------------------------------------------------------

theorem processSeq_spec {α : Type} : ∀ (seq : List (α × Char)) (st : List α),
    processSeq seq st =
      st.take (st.length - min st.length (maxExcess (seq.map Prod.snd))) ++
        specKeep seq := by
  intro seq
  induction seq with
  | nil =>
    intro st
    simp [processSeq, specKeep, maxExcess]
  | cons p rest ih =>
    intro st
    obtain ⟨a, c⟩ := p
    by_cases hob : c = '\x7b'
    · subst hob
      rw [show processSeq (⟨a, '\x7b'⟩ :: rest) st = processSeq rest (st ++ [a]) from by
        simp [processSeq]]
      rw [ih (st ++ [a])]
      rw [show specKeep (⟨a, '\x7b'⟩ :: rest) =
        (if maxExcess (rest.map Prod.snd) = 0 then [a] else []) ++ specKeep rest from by
        simp [specKeep]]
      rw [show maxExcess ((⟨a, '\x7b'⟩ :: rest).map Prod.snd)
          = maxExcess (rest.map Prod.snd) - 1 from by simp [maxExcess]]
      by_cases hm : maxExcess (rest.map Prod.snd) = 0
      · rw [if_pos hm, hm]
        simp only [Nat.min_zero, Nat.sub_zero]
        rw [List.take_of_length_le (by simp)]
        simp
      · rw [if_neg hm]
        have h1 : st.length + 1 - min (st.length + 1) (maxExcess (rest.map Prod.snd))
            ≤ st.length := by omega
        rw [show (st ++ [a]).length = st.length + 1 from by simp]
        rw [List.take_append_of_le_length h1]
        have h2 : st.length + 1 - min (st.length + 1) (maxExcess (rest.map Prod.snd))
            = st.length - min st.length (maxExcess (rest.map Prod.snd) - 1) := by omega
        rw [h2]
        simp
    · by_cases hcb : c = '\x7d'
      · subst hcb
        rw [show processSeq (⟨a, '\x7d'⟩ :: rest) st
            = processSeq rest (if st.isEmpty then st else st.dropLast) from by
          simp [processSeq]]
        rw [show specKeep (⟨a, '\x7d'⟩ :: rest) = specKeep rest from by simp [specKeep]]
        rw [show maxExcess ((⟨a, '\x7d'⟩ :: rest).map Prod.snd)
            = maxExcess (rest.map Prod.snd) + 1 from by simp [maxExcess]]
        cases st with
        | nil => simp [ih]
        | cons s0 st' =>
          rw [show (if (s0 :: st').isEmpty then s0 :: st' else (s0 :: st').dropLast)
              = (s0 :: st').dropLast from by simp]
          rw [ih ((s0 :: st').dropLast)]
          have hlen : (s0 :: st').dropLast.length = (s0 :: st').length - 1 := by
            simp
          rw [hlen]
          have h3 : (s0 :: st').length - 1 -
              min ((s0 :: st').length - 1) (maxExcess (rest.map Prod.snd))
              = (s0 :: st').length -
                min ((s0 :: st').length) (maxExcess (rest.map Prod.snd) + 1) := by
            have : 1 ≤ (s0 :: st').length := by simp
            omega
          rw [h3]
          rw [List.dropLast_eq_take]
          rw [List.take_take]
          have h4 : min ((s0 :: st').length -
              min ((s0 :: st').length) (maxExcess (rest.map Prod.snd) + 1))
              ((s0 :: st').length - 1)
              = (s0 :: st').length -
                min ((s0 :: st').length) (maxExcess (rest.map Prod.snd) + 1) := by
            have : 1 ≤ (s0 :: st').length := by simp
            omega
          rw [h4]
      · rw [show processSeq (⟨a, c⟩ :: rest) st = processSeq rest st from by
          simp [processSeq, hob, hcb]]
        rw [show specKeep (⟨a, c⟩ :: rest) = specKeep rest from by
          simp [specKeep, hob]]
        rw [show maxExcess ((⟨a, c⟩ :: rest).map Prod.snd)
            = maxExcess (rest.map Prod.snd) from by simp [maxExcess, hob, hcb]]
        exact ih st

theorem braceLineGo_eq (i : Nat) (raw : Text) : ∀ (s : Text) (col : Nat)
    (st : List (Nat × Nat × Text)),
    braceLineGo i raw s col st = processSeq (annotGo i raw s col) st := by
  intro s
  induction s with
  | nil => intro col st; rfl
  | cons c cs ih =>
    intro col st
    rw [braceLineGo, annotGo]
    rw [show processSeq (((i, col + 1, raw), c) :: annotGo i raw cs (col + 1)) st
        = if c = '\x7b' then processSeq (annotGo i raw cs (col + 1)) (st ++ [(i, col + 1, raw)])
          else if c = '\x7d' then
            processSeq (annotGo i raw cs (col + 1)) (if st.isEmpty then st else st.dropLast)
          else processSeq (annotGo i raw cs (col + 1)) st from by simp [processSeq]]
    by_cases h1 : c = '\x7b'
    · rw [if_pos h1, if_pos h1, ih]
    · rw [if_neg h1, if_neg h1]
      by_cases h2 : c = '\x7d'
      · rw [if_pos h2, if_pos h2, ih]
      · rw [if_neg h2, if_neg h2, ih]

theorem processSeq_append {α : Type} : ∀ (a b : List (α × Char)) (st : List α),
    processSeq (a ++ b) st = processSeq b (processSeq a st) := by
  intro a
  induction a with
  | nil => intro b st; rfl
  | cons p rest ih =>
    intro b st
    rw [List.cons_append]
    by_cases h1 : p.2 = '\x7b'
    · rw [show processSeq (p :: (rest ++ b)) st = processSeq (rest ++ b) (st ++ [p.1]) from by
        simp [processSeq, h1]]
      rw [show processSeq (p :: rest) st = processSeq rest (st ++ [p.1]) from by
        simp [processSeq, h1]]
      exact ih b (st ++ [p.1])
    · by_cases h2 : p.2 = '\x7d'
      · rw [show processSeq (p :: (rest ++ b)) st
            = processSeq (rest ++ b) (if st.isEmpty then st else st.dropLast) from by
          simp [processSeq, h1, h2]]
        rw [show processSeq (p :: rest) st
            = processSeq rest (if st.isEmpty then st else st.dropLast) from by
          simp [processSeq, h1, h2]]
        exact ih b _
      · rw [show processSeq (p :: (rest ++ b)) st = processSeq (rest ++ b) st from by
          simp [processSeq, h1, h2]]
        rw [show processSeq (p :: rest) st = processSeq rest st from by
          simp [processSeq, h1, h2]]
        exact ih b st

theorem braceLines_eq : ∀ (ls : List Text) (i : Nat) (st : List (Nat × Nat × Text)),
    braceLines i ls st = processSeq (annotLines i ls) st := by
  intro ls
  induction ls with
  | nil => intro i st; rfl
  | cons raw rest ih =>
    intro i st
    rw [braceLines, annotLines, processSeq_append, ih, braceLineGo_eq]

theorem find_unmatched_eq_spec (t : Text) :
    find_unmatched_open_braces t = specKeep (annotLines 1 (splitlines t)) := by
  unfold find_unmatched_open_braces
  rw [braceLines_eq, processSeq_spec]
  simp

-- ---------------------------------------------------------------------
-- Properties of the item substitution and the subheading substitution
-- ---------------------------------------------------------------------

theorem stripPfx_append (p : Text) : ∀ r, stripPfx p (p ++ r) = some r := by
  induction p with
  | nil => intro r; rfl
  | cons c cs ih =>
    intro r
    simp only [List.cons_append, stripPfx, if_pos rfl]
    exact ih r

theorem stripPfx_spec {p : Text} : ∀ {s r : Text}, stripPfx p s = some r → s = p ++ r := by
  induction p with
  | nil =>
    intro s r h
    simpa [stripPfx] using (by simpa [stripPfx] using h : s = r)
  | cons c cs ih =>
    intro s r h
    match s with
    | [] => simp [stripPfx] at h
    | d :: ds =>
      simp only [stripPfx] at h
      split at h
      · next hcd =>
        subst hcd
        rw [List.cons_append]
        rw [ih h]
      · exact absurd h (by simp)

theorem takeWhile_no_close {x : Text} (hx : ∀ c ∈ x, c ≠ '\x7d') (cs : Text) :
    (x ++ '\x7d' :: cs).takeWhile (fun c => c ≠ '\x7d') = x := by
  induction x with
  | nil => simp [List.takeWhile]
  | cons c cx ih =>
    have hc : c ≠ '\x7d' := hx c (List.mem_cons_self c cx)
    have hcx : ∀ y ∈ cx, y ≠ '\x7d' := fun y hy => hx y (List.mem_cons_of_mem c hy)
    simp only [List.cons_append, List.takeWhile_cons]
    rw [if_pos (by simpa using hc), ih hcx]

theorem matchItemAt_exact (kw : Text) {x : Text} (hx : ∀ c ∈ x, c ≠ '\x7d') (cs : Text) :
    matchItemAt kw (kw ++ x ++ '\x7d' :: cs) = some (x, kw.length + x.length + 1) := by
  unfold matchItemAt
  rw [List.append_assoc, stripPfx_append]
  simp only [takeWhile_no_close hx]
  rw [List.drop_left]
  rfl

theorem subItemsGo_skip (kw : Text) : ∀ (t rest : Text) (d : Int),
    subItemsGo kw (t ++ rest) t.length d = subItemsGo kw rest 0 d := by
  intro t
  induction t with
  | nil => intro rest d; rfl
  | cons c cs ih =>
    intro rest d
    rw [List.cons_append, List.length_cons]
    rw [show subItemsGo kw (c :: (cs ++ rest)) (cs.length + 1) d
        = subItemsGo kw (cs ++ rest) cs.length d from rfl]
    exact ih rest d

theorem subItemsGo_zero_some {kw : Text} {c : Char} {cs : Text} {y : Text} {n : Nat}
    (hm : matchItemAt kw (c :: cs) = some (y, n)) (d : Int) :
    subItemsGo kw (c :: cs) 0 d =
      ((replItem d y).1 ++ (subItemsGo kw cs (n - 1) (replItem d y).2).1,
       (subItemsGo kw cs (n - 1) (replItem d y).2).2) := by
  simp only [subItemsGo, hm]

theorem subItemsGo_zero_none {kw : Text} {c : Char} {cs : Text}
    (hm : matchItemAt kw (c :: cs) = none) (d : Int) :
    subItemsGo kw (c :: cs) 0 d =
      (c :: (subItemsGo kw cs 0 d).1, (subItemsGo kw cs 0 d).2) := by
  simp only [subItemsGo, hm]

/-- One matched item occurrence at the scan point is replaced by the
stateful replacement and scanning continues after the occurrence. -/
theorem subItemsGo_match (kw : Text) (k0 : Char) (kwr : Text)
    (hkw : kw = k0 :: kwr) {x : Text} (hx : ∀ c ∈ x, c ≠ '\x7d') (cs : Text) (d : Int) :
    subItemsGo kw (kw ++ x ++ '\x7d' :: cs) 0 d =
      ((replItem d x).1 ++ (subItemsGo kw cs 0 (replItem d x).2).1,
       (subItemsGo kw cs 0 (replItem d x).2).2) := by
  have hm := matchItemAt_exact kw hx cs
  subst hkw
  have hcons : (k0 :: kwr) ++ x ++ '\x7d' :: cs = k0 :: (kwr ++ x ++ '\x7d' :: cs) := by
    simp
  rw [hcons] at hm
  rw [hcons, subItemsGo_zero_some hm]
  have hskip : (k0 :: kwr).length + x.length + 1 - 1 = (kwr ++ x ++ ['\x7d']).length := by
    simp
    omega
  rw [hskip]
  have hassoc : kwr ++ x ++ '\x7d' :: cs = (kwr ++ x ++ ['\x7d']) ++ cs := by simp
  rw [hassoc, subItemsGo_skip]

theorem replItem_nonneg {d : Int} (hd : 0 ≤ d) (x : Text) : 0 ≤ (replItem d x).2 := by
  unfold replItem
  split
  · omega
  · exact hd

theorem subItemsGo_nonneg (kw : Text) : ∀ (s : Text) (k : Nat) {d : Int}, 0 ≤ d →
    0 ≤ (subItemsGo kw s k d).2 := by
  intro s
  induction s with
  | nil => intro k d hd; exact hd
  | cons c cs ih =>
    intro k d hd
    cases k with
    | succ k => exact ih k hd
    | zero =>
      rcases hmm : matchItemAt kw (c :: cs) with _ | ⟨y, n⟩
      · rw [subItemsGo_zero_none hmm]
        exact ih 0 hd
      · rw [subItemsGo_zero_some hmm]
        exact ih (n - 1) (replItem_nonneg hd y)

theorem beginFold_nonneg : ∀ (names : List Text) {d : Int}, 0 ≤ d →
    0 ≤ names.foldl (fun dd nm => if nm = itemizeName then dd + 1 else dd) d := by
  intro names
  induction names with
  | nil => intro d hd; exact hd
  | cons nm rest ih =>
    intro d hd
    rw [List.foldl_cons]
    refine ih ?_
    split
    · omega
    · exact hd

theorem endFold_nonneg : ∀ (names : List Text) {d : Int}, 0 ≤ d →
    0 ≤ names.foldl (fun dd nm => if nm = itemizeName ∧ 0 < dd then dd - 1 else dd) d := by
  intro names
  induction names with
  | nil => intro d hd; exact hd
  | cons nm rest ih =>
    intro d hd
    rw [List.foldl_cons]
    refine ih ?_
    split
    · next hcond => omega
    · exact hd

theorem processLine_nonneg {d : Int} (hd : 0 ≤ d) (raw : Text) :
    0 ≤ (processLine d raw).2 := by
  unfold processLine
  exact subItemsGo_nonneg _ _ _ (subItemsGo_nonneg _ _ _
    (endFold_nonneg _ (beginFold_nonneg _ hd)))

theorem processLines_nonneg : ∀ (ls : List Text) {d : Int}, 0 ≤ d →
    0 ≤ (processLines ls d).2 := by
  intro ls
  induction ls with
  | nil => intro d hd; exact hd
  | cons ln rest ih =>
    intro d hd
    exact ih (processLine_nonneg hd ln)

theorem hasPfx_decomp {p : Text} : ∀ {s : Text}, hasPfx p s = true → s = p ++ s.drop p.length := by
  induction p with
  | nil => intro s _; rfl
  | cons c cs ih =>
    intro s h
    match s with
    | [] => simp [hasPfx] at h
    | d :: ds =>
      simp only [hasPfx, Bool.and_eq_true, decide_eq_true_eq] at h
      obtain ⟨rfl, h2⟩ := h
      rw [List.length_cons, List.cons_append, List.drop_succ_cons]
      rw [← ih h2]

theorem splitOnSep_decomp {sep : Text} : ∀ {s a r : Text},
    splitOnSep sep s = some (a, r) → s = a ++ sep ++ r := by
  intro s
  induction s with
  | nil => intro a r h; simp [splitOnSep] at h
  | cons c cs ih =>
    intro a r h
    rw [splitOnSep] at h
    split at h
    · next hp =>
      obtain ⟨h1, h2⟩ : ([] : Text) = a ∧ (c :: cs).drop sep.length = r := by
        constructor
        · exact congrArg Prod.fst (Option.some.inj h)
        · exact congrArg Prod.snd (Option.some.inj h)
      subst h1
      subst h2
      simpa using hasPfx_decomp hp
    · obtain ⟨⟨a', r'⟩, hsp, heq⟩ := Option.map_eq_some'.mp h
      have h1 : c :: a' = a := congrArg Prod.fst heq
      have h2 : r' = r := congrArg Prod.snd heq
      subst h1
      subst h2
      have := ih hsp
      rw [List.cons_append, List.cons_append, ← this]

theorem getLast?_cons_ne {c : Char} {cs : Text} (h : cs ≠ []) :
    (c :: cs).getLast? = cs.getLast? := by
  rw [show c :: cs = [c] ++ cs from rfl, List.getLast?_append_of_ne_nil _ h]

theorem matchShAt_decomp {s repl rest : Text} (h : matchShAt s = some (repl, rest)) :
    ∃ M, s = M ++ rest ∧ M ≠ [] ∧ M.getLast? = some '\x7d' := by
  unfold matchShAt at h
  rcases hp : stripPfx shKw s with _ | r0
  · rw [hp] at h; exact absurd h (by simp)
  · simp only [hp] at h
    rcases h1 : splitOnSep sepBrace2 r0 with _ | ⟨a, r1⟩
    · simp only [h1] at h
      exact absurd h (by simp)
    · simp only [h1] at h
      rcases h2 : splitOnSep sepBrace2 r1 with _ | ⟨b, r2⟩
      · simp only [h2] at h
        exact absurd h (by simp)
      · simp only [h2] at h
        rcases h3 : splitOnSep sepBrace2 r2 with _ | ⟨c, r3⟩
        · simp only [h3] at h
          exact absurd h (by simp)
        · simp only [h3] at h
          rcases h4 : splitOnSep ['\x7d'] r3 with _ | ⟨dd, r4⟩
          · simp only [h4] at h
            exact absurd h (by simp)
          · simp only [h4] at h
            have hr4 : r4 = rest := by
              have := congrArg Prod.snd (Option.some.inj h)
              simpa using this
            subst hr4
            refine ⟨shKw ++ a ++ sepBrace2 ++ b ++ sepBrace2 ++ c ++ sepBrace2 ++ dd ++ ['\x7d'],
              ?_, by simp, ?_⟩
            · rw [stripPfx_spec hp, splitOnSep_decomp h1, splitOnSep_decomp h2,
                splitOnSep_decomp h3, splitOnSep_decomp h4]
              simp
            · rw [List.getLast?_concat]

theorem subShGo_last_nl : ∀ (s : Text) (k : Nat), s.getLast? = some '\n' →
    k < s.length → subShGo s k ≠ [] ∧ (subShGo s k).getLast? = some '\n' := by
  intro s
  induction s with
  | nil =>
    intro k h hk
    simp at hk
  | cons c cs ih =>
    intro k h hk
    cases k with
    | succ k =>
      have hcs : cs ≠ [] := by
        intro he
        subst he
        simp at hk
      have hlast : cs.getLast? = some '\n' := by
        rwa [getLast?_cons_ne hcs] at h
      have hklt : k < cs.length := by
        have := List.length_cons c cs ▸ hk
        omega
      exact ih k hlast hklt
    | zero =>
      rcases hm : matchShAt (c :: cs) with _ | ⟨repl, rest⟩
      · rw [show subShGo (c :: cs) 0 = c :: subShGo cs 0 from by simp [subShGo, hm]]
        by_cases hcs : cs = []
        · subst hcs
          have hcn : c = '\n' := by simpa using h
          subst hcn
          exact ⟨by simp [subShGo], by simp [subShGo]⟩
        · have hlast : cs.getLast? = some '\n' := by
            rwa [getLast?_cons_ne hcs] at h
          have hlen : 0 < cs.length := List.length_pos.mpr hcs
          obtain ⟨hne2, hl2⟩ := ih 0 hlast hlen
          exact ⟨by simp, by rw [getLast?_cons_ne hne2]; exact hl2⟩
      · obtain ⟨M, hM, hMne, hMlast⟩ := matchShAt_decomp hm
        have hrest : rest ≠ [] := by
          intro he
          subst he
          rw [List.append_nil] at hM
          rw [hM] at h
          rw [hMlast] at h
          simp at h
        have hlenM : M.length = (c :: cs).length - rest.length := by
          rw [hM]
          simp
        have hrlen : rest.length < (c :: cs).length := by
          rw [hM, List.length_append]
          have : 0 < M.length := List.length_pos.mpr hMne
          omega
        rw [show subShGo (c :: cs) 0
            = repl ++ subShGo cs ((c :: cs).length - rest.length - 1) from by
          simp [subShGo, hm]]
        have hcs : cs ≠ [] := by
          intro he
          subst he
          have : M.length ≤ 1 := by
            have h1 : M.length + rest.length = 1 := by
              have := congrArg List.length hM
              simpa using this.symm
            omega
          interval_cases hml : M.length
          · exact hMne (List.length_eq_zero.mp hml)
          · have h1 : M.length + rest.length = 1 := by
              have := congrArg List.length hM
              simpa using this.symm
            have : rest.length = 0 := by omega
            exact hrest (List.length_eq_zero.mp this)
        have hlast : cs.getLast? = some '\n' := by
          rwa [getLast?_cons_ne hcs] at h
        have hklt : (c :: cs).length - rest.length - 1 < cs.length := by
          have h0 : 0 < rest.length := List.length_pos.mpr hrest
          have h5 : 0 < cs.length := List.length_pos.mpr hcs
          simp only [List.length_cons]
          omega
        obtain ⟨hne2, hl2⟩ := ih _ hlast hklt
        constructor
        · intro he
          exact hne2 (List.append_eq_nil.mp he).2
        · rw [List.getLast?_append_of_ne_nil _ hne2]
          exact hl2

-- ---------------------------------------------------------------------
-- Properties of the environment balancer scan
-- ---------------------------------------------------------------------

theorem findLineIdx_some_spec {p : Text → Bool} : ∀ {ls : List Text} {k : Nat},
    findLineIdx p ls = some k →
    k < ls.length ∧ (∀ x ∈ ls.take k, p x = false) ∧
      ∃ l post, ls.drop k = l :: post ∧ p l = true := by
  intro ls
  induction ls with
  | nil => intro k h; simp [findLineIdx] at h
  | cons l rest ih =>
    intro k h
    rw [findLineIdx] at h
    split at h
    · next hp =>
      obtain rfl : (0 : Nat) = k := by simpa using h
      exact ⟨by simp, by simp, l, rest, rfl, hp⟩
    · next hp =>
      obtain ⟨k', hk1, hk2⟩ := Option.map_eq_some'.mp h
      subst hk2
      obtain ⟨ha, hb, l', post', hc, hd⟩ := ih hk1
      refine ⟨by simpa using ha, ?_, l', post', by simpa using hc, hd⟩
      intro x hx
      rw [List.take_succ_cons] at hx
      rcases List.mem_cons.mp hx with hx | hx
      · subst hx
        simpa using hp
      · exact hb x hx

theorem findLineIdx_none_spec {p : Text → Bool} : ∀ {ls : List Text},
    findLineIdx p ls = none → ∀ x ∈ ls, p x = false := by
  intro ls
  induction ls with
  | nil => intro _ x hx; simp at hx
  | cons l rest ih =>
    intro h x hx
    rw [findLineIdx] at h
    split at h
    · exact absurd h (by simp)
    · next hp =>
      rcases List.mem_cons.mp hx with hx | hx
      · subst hx; simpa using hp
      · exact ih (by simpa using h) x hx

theorem endDocIdx_le (ls : List Text) : endDocIdx ls ≤ ls.length := by
  unfold endDocIdx
  rcases h : findLineIdx isEndDocLine ls with _ | k
  · simp
  · simp only [Option.getD_some]
    exact le_of_lt (findLineIdx_some_spec h).1

theorem scanLinesFrom_append : ∀ (a b : List Text) (i : Nat) (st : BalSt),
    scanLinesFrom i (a ++ b) st = scanLinesFrom (i + a.length) b (scanLinesFrom i a st) := by
  intro a
  induction a with
  | nil => intro b i st; simp [scanLinesFrom]
  | cons l rest ih =>
    intro b i st
    rw [List.cons_append, scanLinesFrom, scanLinesFrom, ih]
    congr 1
    simp
    omega

theorem scanLine_inert {ln : Text} (h : inertLine ln) (i : Nat) (st : BalSt) :
    scanLine i st ln = st := by
  unfold scanLine
  rcases h with h | ⟨h1, h2⟩
  · rw [if_pos h]
  · by_cases hc : is_commented ln
    · rw [if_pos hc]
    · rw [if_neg hc, h1, h2]
      rfl

theorem scanLinesFrom_inert : ∀ {ls : List Text}, (∀ ln ∈ ls, inertLine ln) →
    ∀ (i : Nat) (st : BalSt), scanLinesFrom i ls st = st := by
  intro ls
  induction ls with
  | nil => intro _ i st; rfl
  | cons l rest ih =>
    intro h i st
    rw [scanLinesFrom, scanLine_inert (h l (List.mem_cons_self l rest))]
    exact ih (fun x hx => h x (List.mem_cons_of_mem l hx)) (i + 1) st

theorem pushBegins_mem {i : Nat} : ∀ {names : List Text} {st : List (Text × Nat)}
    {q : Text × Nat}, q ∈ pushBegins i names st → q.1 ∈ names ∨ q ∈ st := by
  intro names
  induction names with
  | nil => intro st q h; exact Or.inr h
  | cons nm rest ih =>
    intro st q h
    rw [pushBegins, List.foldl_cons] at h
    rcases ih h with h | h
    · exact Or.inl (List.mem_cons_of_mem nm h)
    · rcases List.mem_cons.mp h with h | h
      · left
        rw [h]
        exact List.mem_cons_self nm rest
      · exact Or.inr h

theorem procEnd_stack_sub {st : BalSt} {i : Nat} {nm : Text} {q : Text × Nat}
    (h : q ∈ (procEnd st i nm).stack) : q ∈ st.stack := by
  unfold procEnd at h
  split at h
  · next top j rest heq =>
    split at h
    · rw [heq]
      exact List.mem_cons_of_mem _ h
    · rw [heq]
      exact h
  · next heq =>
    rw [heq]
    exact h

theorem endsFold_stack_sub : ∀ {names : List Text} {st : BalSt} {i : Nat} {q : Text × Nat},
    q ∈ (names.foldl (fun s nm => procEnd s i nm) st).stack → q ∈ st.stack := by
  intro names
  induction names with
  | nil => intro st i q h; exact h
  | cons nm rest ih =>
    intro st i q h
    rw [List.foldl_cons] at h
    exact procEnd_stack_sub (ih h)

theorem trackedBegins_mem {ln : Text} {nm : Text} (h : nm ∈ trackedBegins ln) :
    nm ∈ BALANCE_ENVS := by
  unfold trackedBegins at h
  have := List.of_mem_filter h
  simpa using this

theorem scanLine_stack_mem {i : Nat} {st : BalSt} {ln : Text}
    (hst : ∀ q ∈ st.stack, q.1 ∈ BALANCE_ENVS) :
    ∀ q ∈ (scanLine i st ln).stack, q.1 ∈ BALANCE_ENVS := by
  intro q hq
  unfold scanLine at hq
  split at hq
  · exact hst q hq
  · have hq2 := endsFold_stack_sub hq
    rcases pushBegins_mem hq2 with h | h
    · exact trackedBegins_mem h
    · exact hst q h

theorem scanLinesFrom_stack_mem : ∀ {ls : List Text} {i : Nat} {st : BalSt},
    (∀ q ∈ st.stack, q.1 ∈ BALANCE_ENVS) →
    ∀ q ∈ (scanLinesFrom i ls st).stack, q.1 ∈ BALANCE_ENVS := by
  intro ls
  induction ls with
  | nil => intro i st h; exact h
  | cons l rest ih =>
    intro i st h
    rw [scanLinesFrom]
    exact ih (scanLine_stack_mem h)

/-- The synthesized closer of a tracked environment is a plain line: not
commented, free of line breaks, holding no begin marker and exactly its
own end marker, and not the end-document line. -/
theorem closer_props : ∀ nm ∈ BALANCE_ENVS,
    is_commented ("\\end\x7b".data ++ nm ++ ['\x7d']) = false ∧
    trackedBegins ("\\end\x7b".data ++ nm ++ ['\x7d']) = [] ∧
    trackedEnds ("\\end\x7b".data ++ nm ++ ['\x7d']) = [nm] ∧
    (∀ c ∈ "\\end\x7b".data ++ nm ++ ['\x7d'], isLineBreakChar c = false) ∧
    isEndDocLine ("\\end\x7b".data ++ nm ++ ['\x7d']) = false := by
  decide

theorem closers_pop : ∀ (st : List (Text × Nat)) (u : List (Text × Nat)) (i : Nat),
    (∀ q ∈ st, q.1 ∈ BALANCE_ENVS) →
    scanLinesFrom i (st.map closerOf) ⟨st, u⟩ = ⟨[], u⟩ := by
  intro st
  induction st with
  | nil => intro u i _; rfl
  | cons q rest ih =>
    intro u i h
    have hq : q.1 ∈ BALANCE_ENVS := h q (List.mem_cons_self q rest)
    obtain ⟨hc, hb, he, _, _⟩ := closer_props q.1 hq
    rw [List.map_cons, scanLinesFrom]
    have hcq : is_commented (closerOf q) = false := hc
    have hline : scanLine i ⟨q :: rest, u⟩ (closerOf q) = ⟨rest, u⟩ := by
      unfold scanLine
      rw [if_neg (by simp [hcq])]
      rw [show trackedBegins (closerOf q) = [] from hb,
        show trackedEnds (closerOf q) = [q.1] from he]
      simp only [pushBegins, List.foldl_nil, List.foldl_cons]
      unfold procEnd
      simp
    rw [hline]
    exact ih u (i + 1) (fun x hx => h x (List.mem_cons_of_mem q hx))

/-- The output of balance_envs in closed form: the closers of the final
stack, innermost environment first, are spliced in before the first
end-document line, and the stats count the closers and the unmatched
ends. -/
theorem balance_envs_shape (t : Text) :
    balance_envs t =
      (joinNL ((splitlines t).take (endDocIdx (splitlines t)) ++
        (scanLinesFrom 1 (splitlines t) ⟨[], []⟩).stack.map closerOf ++
        (splitlines t).drop (endDocIdx (splitlines t))) ++ ['\n'],
       ((scanLinesFrom 1 (splitlines t) ⟨[], []⟩).stack.map closerOf).length,
       (scanLinesFrom 1 (splitlines t) ⟨[], []⟩).unmatched.length) := by
  unfold balance_envs
  dsimp only
  split
  · next hemp =>
    have h0 : (scanLinesFrom 1 (splitlines t) ⟨[], []⟩).stack.map closerOf = [] := by
      simpa using hemp
    rw [h0]
    simp [List.take_append_drop]
  · rfl

theorem balance_second_pass {t : Text}
    (hpost : ∀ ln ∈ (splitlines t).drop (endDocIdx (splitlines t)), inertLine ln) :
    (scanLinesFrom 1 (splitlines ((balance_envs t).1)) ⟨[], []⟩).stack = [] ∧
    balance_envs ((balance_envs t).1) =
      ((balance_envs t).1, 0, (balance_envs t).2.2) := by
  by_cases hnil : splitlines t = []
  · have hS : scanLinesFrom 1 (splitlines t) ⟨[], []⟩ = ⟨[], []⟩ := by
      rw [hnil]
      rfl
    have hout : (balance_envs t).1 = ['\n'] := by
      rw [balance_envs_shape t, hS, hnil]
      rfl
    have hstats : (balance_envs t).2.2 = 0 := by
      rw [balance_envs_shape t, hS]
      rfl
    rw [hout, hstats]
    constructor
    · decide
    · decide
  · set lines := splitlines t with hlines
    set e := endDocIdx lines with he
    set S := scanLinesFrom 1 lines ⟨[], []⟩ with hS
    have hsplit : lines.take e ++ lines.drop e = lines := List.take_append_drop e lines
    have hmem : ∀ q ∈ S.stack, q.1 ∈ BALANCE_ENVS := by
      refine scanLinesFrom_stack_mem ?_
      intro q hq
      simp at hq
    have hSpre : S = scanLinesFrom 1 (lines.take e) ⟨[], []⟩ := by
      rw [hS, ← hsplit, scanLinesFrom_append]
      rw [scanLinesFrom_inert hpost]
      rw [hsplit]
    have hbreak1 : ∀ l ∈ lines, ∀ c ∈ l, isLineBreakChar c = false :=
      splitlines_no_break t
    have hbreakC : ∀ l ∈ S.stack.map closerOf, ∀ c ∈ l, isLineBreakChar c = false := by
      intro l hl c hc
      obtain ⟨q, hq, hql⟩ := List.mem_map.mp hl
      obtain ⟨_, _, _, hb, _⟩ := closer_props q.1 (hmem q hq)
      refine hb c ?_
      rw [show "\\end\x7b".data ++ q.1 ++ ['\x7d'] = closerOf q from rfl, hql]
      exact hc
    have hbreakAll : ∀ l ∈ lines.take e ++ S.stack.map closerOf ++ lines.drop e,
        ∀ c ∈ l, isLineBreakChar c = false := by
      intro l hl
      rcases List.mem_append.mp hl with hl2 | hl2
      · rcases List.mem_append.mp hl2 with hl3 | hl3
        · exact hbreak1 l (List.mem_of_mem_take hl3)
        · exact hbreakC l hl3
      · exact hbreak1 l (List.mem_of_mem_drop hl2)
    have hne1 : lines.take e ++ S.stack.map closerOf ++ lines.drop e ≠ [] := by
      intro hcon
      have h1 := List.append_eq_nil.mp hcon
      have h2 := List.append_eq_nil.mp h1.1
      rw [← hsplit, h2.1, h1.2] at hnil
      exact hnil rfl
    have hrec : splitlines ((balance_envs t).1)
        = lines.take e ++ S.stack.map closerOf ++ lines.drop e := by
      rw [balance_envs_shape t, ← hlines, ← he, ← hS]
      exact splitlines_join hbreakAll hne1
    have hrescan : scanLinesFrom 1
        (lines.take e ++ S.stack.map closerOf ++ lines.drop e) ⟨[], []⟩
        = ⟨[], S.unmatched⟩ := by
      rw [List.append_assoc, scanLinesFrom_append, ← hSpre, scanLinesFrom_append]
      have hpop : scanLinesFrom (1 + (lines.take e).length)
          (S.stack.map closerOf) S = ⟨[], S.unmatched⟩ :=
        closers_pop S.stack S.unmatched _ hmem
      rw [hpop]
      exact scanLinesFrom_inert hpost _ _
    constructor
    · rw [hrec, hrescan]
    · rw [balance_envs_shape ((balance_envs t).1), hrec, hrescan]
      have hfinal : (balance_envs t).1
          = joinNL (lines.take e ++ S.stack.map closerOf ++ lines.drop e) ++ ['\n'] := by
        rw [balance_envs_shape t]
      have hstats : (balance_envs t).2.2 = S.unmatched.length := by
        rw [balance_envs_shape t]
      rw [hfinal, hstats]
      simp [List.take_append_drop]

theorem endDoc_split (ls : List Text) :
    (∀ l ∈ ls.take (endDocIdx ls), isEndDocLine l = false) ∧
    (ls.drop (endDocIdx ls) = [] ∨
      ∃ l post', ls.drop (endDocIdx ls) = l :: post' ∧ isEndDocLine l = true) ∧
    (ls.take (endDocIdx ls)).length = endDocIdx ls := by
  unfold endDocIdx
  rcases h : findLineIdx isEndDocLine ls with _ | k
  · have hall := findLineIdx_none_spec h
    simp only [Option.getD_none]
    refine ⟨?_, Or.inl (by simp), by simp⟩
    intro l hl
    exact hall l (List.mem_of_mem_take hl)
  · obtain ⟨hk, hpre, l, post, hd, hp⟩ := findLineIdx_some_spec h
    simp only [Option.getD_some]
    exact ⟨hpre, Or.inr ⟨l, post, hd, hp⟩, by rw [List.length_take]; omega⟩

/-- Sum form of the line fold computing the rough brace imbalance. -/
theorem imbFold_eq_sum : ∀ (L : List Text) (a : Int),
    L.foldl (fun tot raw => tot + lineImb raw) a = a + (L.map lineImb).sum := by
  intro L
  induction L with
  | nil => intro a; simp
  | cons l rest ih =>
    intro a
    rw [List.foldl_cons, ih, List.map_cons, List.sum_cons]
    omega

theorem rough_eq_sum (t : Text) :
    rough_brace_imbalance t = ((splitlines t).map lineImb).sum := by
  unfold rough_brace_imbalance
  rw [imbFold_eq_sum]
  omega

-- ---------------------------------------------------------------------
-- Claims
-- ---------------------------------------------------------------------

/-- C1: In the invocation rewriter, an item macro (resumeItem or
resumeSubItem) matched while the list depth counter is zero is replaced
by exactly one synthesized list begin, a newline, and the item text with
its argument, and the counter is incremented; at a positive counter only
the item text is emitted and the counter is unchanged.  In particular,
two consecutive resumeItem calls with no enclosing list synthesize
exactly one list begin. -/
theorem claim_C1 :
    (∀ (kw : Text), kw = itemKw ∨ kw = subItemKw →
      ∀ (d : Int) (x cs : Text), 0 ≤ d → (∀ c ∈ x, c ≠ '\x7d') →
      subItemsGo kw (kw ++ x ++ '\x7d' :: cs) 0 d =
        ((if d = 0 then "\\begin\x7bitemize\x7d\n\\item ".data ++ x
          else "\\item ".data ++ x)
           ++ (subItemsGo kw cs 0 (if d = 0 then d + 1 else d)).1,
         (subItemsGo kw cs 0 (if d = 0 then d + 1 else d)).2)) ∧
    replace_invocations "\\resumeItem\x7ba\x7d\\resumeItem\x7bb\x7d".data
      = "\\begin\x7bitemize\x7d\n\\item a\\item b\n".data ∧
    countSub "\\begin\x7bitemize\x7d".data
      (replace_invocations "\\resumeItem\x7ba\x7d\\resumeItem\x7bb\x7d".data) = 1 := by
  refine ⟨?_, by decide, by decide⟩
  intro kw hkw d x cs hd hx
  have hrepl : replItem d x =
      ((if d = 0 then "\\begin\x7bitemize\x7d\n\\item ".data ++ x
        else "\\item ".data ++ x), if d = 0 then d + 1 else d) := by
    unfold replItem
    by_cases h0 : d = 0
    · rw [if_pos h0, if_pos h0, if_pos h0]
      rw [show beginItemize ++ '\n' :: "\\item ".data
          = "\\begin\x7bitemize\x7d\n\\item ".data from by decide]
    · rw [if_neg h0, if_neg h0, if_neg h0]
  rcases hkw with hkw | hkw
  · subst hkw
    rw [subItemsGo_match itemKw '\\' "resumeItem\x7b".data (by decide) hx cs d, hrepl]
  · subst hkw
    rw [subItemsGo_match subItemKw '\\' "resumeSubItem\x7b".data (by decide) hx cs d, hrepl]

theorem claim_C1_witness :
    ((∀ c ∈ "a".data, c ≠ '\x7d') ∧ (0 : Int) ≤ 0) ∧
    subItemsGo itemKw (itemKw ++ "a".data ++ '\x7d' :: []) 0 0 =
      ("\\begin\x7bitemize\x7d\n\\item ".data ++ "a".data
        ++ (subItemsGo itemKw [] 0 1).1, (subItemsGo itemKw [] 0 1).2) := by
  refine ⟨⟨by decide, by decide⟩, ?_⟩
  have h := claim_C1.1 itemKw (Or.inl rfl) 0 "a".data [] (by decide) (by decide)
  simpa using h

/-- C7: Throughout replace_invocations the list depth counter never goes
negative: the item substitution, the per-line pass, and the whole fold
over the lines each preserve non-negativity, and the fold starts at
zero. -/
theorem claim_C7 :
    (∀ (kw s : Text) (k : Nat) (d : Int), 0 ≤ d → 0 ≤ (subItemsGo kw s k d).2) ∧
    (∀ (d : Int) (raw : Text), 0 ≤ d → 0 ≤ (processLine d raw).2) ∧
    (∀ t : Text, 0 ≤ (processLines (splitlines t) 0).2) :=
  ⟨fun kw s k d hd => subItemsGo_nonneg kw s k hd,
   fun d raw hd => processLine_nonneg hd raw,
   fun t => processLines_nonneg (splitlines t) (le_refl 0)⟩

theorem claim_C7_witness :
    0 ≤ (subItemsGo itemKw "\\resumeItem\x7ba\x7d\\end\x7bitemize\x7d".data 0 0).2 ∧
    0 ≤ (processLine 0 "\\end\x7bitemize\x7d\\resumeItem\x7ba\x7d".data).2 :=
  ⟨claim_C7.1 itemKw "\\resumeItem\x7ba\x7d\\end\x7bitemize\x7d".data 0 0 (by decide),
   claim_C7.2.1 0 "\\end\x7bitemize\x7d\\resumeItem\x7ba\x7d".data (by decide)⟩

/-- C9: Every pipeline stage is a total function of the input text: each
stage is definable by structural or well-founded recursion accepted by
Lean (in particular the scan loop of strip_macro_definitions terminates,
measured by the number of remaining definition-keyword match positions),
so every stage yields an output text on every input. -/
theorem claim_C9 (t : Text) :
    ∃ (o1 o2 o3 o4 o5 : Text) (st : Nat × Nat) (n : Int)
      (hs : List (Nat × Nat × Text)) (o6 : Text),
      guard_glyphtounicode t = o1 ∧
      strip_macro_definitions o1 = o2 ∧
      replace_invocations o2 = o3 ∧
      balance_envs o3 = (o4, st) ∧
      ensure_list_items o4 = o5 ∧
      rough_brace_imbalance o5 = n ∧
      find_unmatched_open_braces o5 = hs ∧
      auto_fix_braces o5 n = o6 :=
  ⟨_, _, _, _, _, _, _, _, _, rfl, rfl, rfl, rfl, rfl, rfl, rfl, rfl⟩

/-- C10: The outputs of replace_invocations, balance_envs,
ensure_list_items and auto_fix_braces with a positive count always end
with a newline, even when the input does not; in particular a stage can
change a text to which no rewriting rule applies. -/
theorem claim_C10 :
    (∀ t : Text, (replace_invocations t).getLast? = some '\n') ∧
    (∀ t : Text, (balance_envs t).1.getLast? = some '\n') ∧
    (∀ t : Text, (ensure_list_items t).getLast? = some '\n') ∧
    (∀ (t : Text) (k : Int), 0 < k → (auto_fix_braces t k).getLast? = some '\n') ∧
    ensure_list_items "x".data = "x\n".data ∧ "x".data ≠ "x\n".data := by
  refine ⟨?_, ?_, ?_, ?_, ?_, by decide⟩
  · intro t
    unfold replace_invocations
    have h := subShGo_last_nl
      (joinNL (processLines (splitlines t) 0).1 ++ ['\n']) 0
      (List.getLast?_concat _) (by simp)
    exact h.2
  · intro t
    rw [balance_envs_shape t]
    exact List.getLast?_concat _
  · intro t
    unfold ensure_list_items
    exact List.getLast?_concat _
  · intro t k hk
    unfold auto_fix_braces
    rw [if_neg (by omega)]
    exact List.getLast?_concat _
  · rw [ensure_list_items_eq_spec]
    decide

theorem claim_C10_witness :
    0 < (2 : Int) ∧ (auto_fix_braces "\x7b\x7b".data 2).getLast? = some '\n' :=
  ⟨by decide, claim_C10.2.2.2.1 "\x7b\x7b".data 2 (by decide)⟩

/-- C2: balance_envs inserts exactly one closing marker per environment
remaining on the stack, in reverse order (the scan stack is kept with the
innermost environment first, and the closers are spliced in that order),
at the position immediately before the first line matching the
end-document regex, or at the end of the document when no line matches;
the stats count the insertions and the unmatched ends, and an unmatched
end contributes only to the stats, never to the text (the text depends
only on the lines, the insertion point, and the final stack). -/
theorem claim_C2 (t : Text) :
    ∃ pre post,
      splitlines t = pre ++ post ∧
      pre.length = endDocIdx (splitlines t) ∧
      (∀ l ∈ pre, isEndDocLine l = false) ∧
      (post = [] ∨ ∃ l post', post = l :: post' ∧ isEndDocLine l = true) ∧
      (balance_envs t).1 =
        joinNL (pre ++ (scanLinesFrom 1 (splitlines t) ⟨[], []⟩).stack.map closerOf
          ++ post) ++ ['\n'] ∧
      (balance_envs t).2.1 = (scanLinesFrom 1 (splitlines t) ⟨[], []⟩).stack.length ∧
      (balance_envs t).2.2 = (scanLinesFrom 1 (splitlines t) ⟨[], []⟩).unmatched.length := by
  obtain ⟨hpre, hpost, hlen⟩ := endDoc_split (splitlines t)
  refine ⟨(splitlines t).take (endDocIdx (splitlines t)),
    (splitlines t).drop (endDocIdx (splitlines t)),
    (List.take_append_drop _ _).symm, hlen, hpre, hpost, ?_, ?_, ?_⟩
  · rw [balance_envs_shape t]
  · rw [balance_envs_shape t]
    simp
  · rw [balance_envs_shape t]

/-- C3 counterexample: the claim fails as stated.  For a text with a
tracked begin after the end-document line the inserted closer lands
before that line, so a rescan of the output still has an open
environment and a second run changes the text again; a tracked end after
the end-document line similarly reopens the mismatch. -/
theorem claim_C3_cex :
    (scanLinesFrom 1 (splitlines
      ((balance_envs "\\end\x7bdocument\x7d\n\\begin\x7bitemize\x7d".data).1))
      ⟨[], []⟩).stack ≠ [] ∧
    (balance_envs ((balance_envs "\\end\x7bdocument\x7d\n\\begin\x7bitemize\x7d".data).1)).1
      ≠ (balance_envs "\\end\x7bdocument\x7d\n\\begin\x7bitemize\x7d".data).1 ∧
    (scanLinesFrom 1 (splitlines ((balance_envs
      ("\\begin\x7bitemize\x7d\n\\begin\x7bcenter\x7d\n" ++
       "\\end\x7bdocument\x7d\n\\end\x7bcenter\x7d").data).1)) ⟨[], []⟩).stack ≠ [] := by
  refine ⟨by decide, by decide, by decide⟩

/-- C3 amended: for every text in which each line at or after the first
end-document line is commented or carries no tracked begin or end
marker, rescanning the output of balance_envs leaves zero entries on the
stack, and balance_envs is idempotent on its own output, inserting zero
closers the second time. -/
theorem claim_C3_amended (t : Text)
    (h : ∀ ln ∈ (splitlines t).drop (endDocIdx (splitlines t)), inertLine ln) :
    (scanLinesFrom 1 (splitlines ((balance_envs t).1)) ⟨[], []⟩).stack = [] ∧
    (balance_envs ((balance_envs t).1)).1 = (balance_envs t).1 ∧
    (balance_envs ((balance_envs t).1)).2.1 = 0 := by
  have h2 := balance_second_pass h
  exact ⟨h2.1, by rw [h2.2], by rw [h2.2]⟩

theorem claim_C3_witness :
    (balance_envs ((balance_envs
      "\\begin\x7bitemize\x7d\nx\n\\end\x7bdocument\x7d".data).1)).1
      = (balance_envs "\\begin\x7bitemize\x7d\nx\n\\end\x7bdocument\x7d".data).1 ∧
    (balance_envs ((balance_envs
      "\\begin\x7bitemize\x7d\nx\n\\end\x7bdocument\x7d".data).1)).2.1 = 0 := by
  have h := claim_C3_amended "\\begin\x7bitemize\x7d\nx\n\\end\x7bdocument\x7d".data
    (by decide)
  exact ⟨h.2.1, h.2.2⟩

/-- C4 counterexample: on a line holding an escaped percent followed by
an opening brace, the unescaped-comment count of the claim is one while
rough_brace_imbalance, which cuts at every percent sign, returns
zero. -/
theorem claim_C4_cex :
    specImbalanceUnescaped "\\%\x7b".data = 1 ∧
    rough_brace_imbalance "\\%\x7b".data = 0 := by
  refine ⟨by decide, by decide⟩

/-- C4 amended: with the count cut at the first percent sign of each
line, escaped or not, rough_brace_imbalance is the sum of the per-line
counts, and for a text with positive imbalance k, auto_fix_braces with k
inserts exactly k closing-brace lines immediately before the first
end-document line (or at the end when none exists), after which the
recomputed imbalance is zero. -/
theorem claim_C4_amended (t : Text) (hk : 0 < rough_brace_imbalance t) :
    rough_brace_imbalance t = ((splitlines t).map lineImb).sum ∧
    ∃ pre post,
      splitlines t = pre ++ post ∧
      pre.length = endDocIdx (splitlines t) ∧
      (∀ l ∈ pre, isEndDocLine l = false) ∧
      (post = [] ∨ ∃ l post', post = l :: post' ∧ isEndDocLine l = true) ∧
      auto_fix_braces t (rough_brace_imbalance t) =
        joinNL (pre ++ List.replicate (rough_brace_imbalance t).toNat ['\x7d'] ++ post)
          ++ ['\n'] ∧
      rough_brace_imbalance (auto_fix_braces t (rough_brace_imbalance t)) = 0 := by
  obtain ⟨hpre, hpost, hlen⟩ := endDoc_split (splitlines t)
  set k := rough_brace_imbalance t with hkdef
  set lines := splitlines t with hlines
  set e := endDocIdx lines with he
  have hout : auto_fix_braces t k =
      joinNL (lines.take e ++ List.replicate k.toNat ['\x7d'] ++ lines.drop e)
        ++ ['\n'] := by
    unfold auto_fix_braces
    rw [if_neg (by omega)]
  refine ⟨rough_eq_sum t, lines.take e, lines.drop e,
    (List.take_append_drop _ _).symm, hlen, hpre, hpost, hout, ?_⟩
  have hbreak : ∀ l ∈ lines.take e ++ List.replicate k.toNat ['\x7d'] ++ lines.drop e,
      ∀ c ∈ l, isLineBreakChar c = false := by
    intro l hl
    rcases List.mem_append.mp hl with hl2 | hl2
    · rcases List.mem_append.mp hl2 with hl3 | hl3
      · exact splitlines_no_break t l (List.mem_of_mem_take hl3)
      · intro c hc
        rw [List.eq_of_mem_replicate hl3] at hc
        obtain rfl : c = '\x7d' := by simpa using hc
        decide
    · exact splitlines_no_break t l (List.mem_of_mem_drop hl2)
  have hkpos : 0 < k.toNat := by omega
  have hne : lines.take e ++ List.replicate k.toNat ['\x7d'] ++ lines.drop e ≠ [] := by
    intro hcon
    have h1 := List.append_eq_nil.mp hcon
    have h2 := List.append_eq_nil.mp h1.1
    have := congrArg List.length h2.2
    simp at this
    omega
  have hrec : splitlines (auto_fix_braces t k)
      = lines.take e ++ List.replicate k.toNat ['\x7d'] ++ lines.drop e := by
    rw [hout]
    exact splitlines_join hbreak hne
  rw [show rough_brace_imbalance (auto_fix_braces t k)
      = ((splitlines (auto_fix_braces t k)).map lineImb).sum from rough_eq_sum _]
  rw [hrec]
  have hsum : ((lines.take e ++ List.replicate k.toNat ['\x7d'] ++ lines.drop e).map
      lineImb).sum
      = ((lines.take e).map lineImb).sum
        + ((List.replicate k.toNat (['\x7d'] : Text)).map lineImb).sum
        + ((lines.drop e).map lineImb).sum := by
    rw [List.map_append, List.map_append, List.sum_append, List.sum_append]
  rw [hsum]
  have hreps : ((List.replicate k.toNat (['\x7d'] : Text)).map lineImb).sum
      = -(k.toNat : Int) := by
    rw [List.map_replicate]
    rw [show lineImb ['\x7d'] = -1 from by decide]
    rw [List.sum_replicate]
    simp
  rw [hreps]
  have hk2 : ((lines.take e).map lineImb).sum + ((lines.drop e).map lineImb).sum = k := by
    have h3 : k = (lines.map lineImb).sum := by
      rw [hkdef, hlines]
      exact rough_eq_sum t
    rw [h3, ← List.take_append_drop e lines]
    rw [List.map_append, List.sum_append]
    rw [List.take_append_drop]
  omega

theorem claim_C4_witness :
    0 < rough_brace_imbalance "\x7b\x7b\n\\end\x7bdocument\x7d".data ∧
    rough_brace_imbalance (auto_fix_braces "\x7b\x7b\n\\end\x7bdocument\x7d".data
      (rough_brace_imbalance "\x7b\x7b\n\\end\x7bdocument\x7d".data)) = 0 := by
  have h := claim_C4_amended "\x7b\x7b\n\\end\x7bdocument\x7d".data (by decide)
  obtain ⟨-, pre, post, -, -, -, -, -, hz⟩ := h
  exact ⟨by decide, hz⟩

/-- C5 counterexample: the claim as stated says that when no body brace
occurs before the end of the starting line of the definition, the
stripped span reaches only to the end of that line, which would leave
the brace text of the second line in place.  The code instead searches
the whole remaining text for a body brace, finds the one on the second
line, and strips through its balanced body. -/
theorem claim_C5_cex :
    _strip_one_definition "\\def\\resumeX q\n\x7bbody\x7d".data 0
      ≠ ("% (stripped macro definition)\n\x7bbody\x7d".data, 1) ∧
    _strip_one_definition "\\def\\resumeX q\n\x7bbody\x7d".data 0
      = ("% (stripped macro definition)\n".data, 1) := by
  refine ⟨by decide, by decide⟩

/-- C5 amended: for a matched structural definition, when the header
scan runs past the end of the text, the stripped span reaches through
the end of the starting line of the definition; when the scan stops in
the text on a character other than an opening brace and no opening brace
occurs anywhere in the remaining text, the span reaches through the end
of the line containing the scan position, which may lie after the
starting line.  In both cases the span is replaced by the one-line
marker comment. -/
theorem claim_C5_amended (src : Text) (p n : Nat)
    (hm : cmdMatchLen (src.drop p) = some n)
    (hs : _should_strip_definition ((src.drop p).take (n + 400)) = true) :
    (src.length ≤ headerEnd src (p + n) →
      _strip_one_definition src p
        = (src.take p ++ marker ++ src.drop (lineEndAfter src p), p + 1)) ∧
    (headerEnd src (p + n) < src.length →
      (src.drop (headerEnd src (p + n))).head? ≠ some '\x7b' →
      findCharFrom '\x7b' src (headerEnd src (p + n)) = none →
      _strip_one_definition src p
        = (src.take p ++ marker ++ src.drop (lineEndAfter src (headerEnd src (p + n))),
           p + 1)) := by
  constructor
  · intro hle
    unfold _strip_one_definition
    rw [hm]
    dsimp only
    rw [if_neg (by simp [hs]), if_pos hle]
  · intro hlt hne hfind
    unfold _strip_one_definition
    rw [hm]
    dsimp only
    rw [if_neg (by simp [hs]), if_neg (by omega), if_pos hne, hfind]

theorem claim_C5_witness :
    cmdMatchLen ("\\def\\labelitemi".data.drop 0) = some 4 ∧
    _should_strip_definition (("\\def\\labelitemi".data.drop 0).take (4 + 400)) = true ∧
    "\\def\\labelitemi".data.length ≤ headerEnd "\\def\\labelitemi".data (0 + 4) ∧
    _strip_one_definition "\\def\\labelitemi".data 0
      = ("\\def\\labelitemi".data.take 0 ++ marker ++
         "\\def\\labelitemi".data.drop (lineEndAfter "\\def\\labelitemi".data 0), 1) := by
  have h := claim_C5_amended "\\def\\labelitemi".data 0 4 (by decide) (by decide)
  exact ⟨by decide, by decide, by decide, by simpa using h.1 (by decide)⟩

/-- C6: find_unmatched_open_braces returns exactly the line and column
records of the opening braces never matched by a later closing brace, in
text order (oldest first): the result coincides with the declarative
specKeep filter, which keeps an opening brace exactly when no later
stretch of the comment-stripped text has an excess of closing braces,
and under which stray closing braces produce no record.  In particular
on the text a-brace-b-brace-c-close the single record is line 1,
column 2. -/
theorem claim_C6 :
    (∀ t : Text, find_unmatched_open_braces t = specKeep (annotLines 1 (splitlines t))) ∧
    find_unmatched_open_braces "a\x7bb\x7bc\x7d".data
      = [(1, 2, "a\x7bb\x7bc\x7d".data)] :=
  ⟨find_unmatched_eq_spec, by decide⟩

/-- C8: ensure_list_items inserts, after each list-begin line whose scan
window (the following lines up to the first line containing an end of
either tracked kind) has no item line, exactly one empty item line, and
leaves every other line unchanged: the index loop with its in-place
insertions computes exactly the per-suffix characterization specEnsure
over the original lines.  The two concrete cases show one insertion into
an empty list and no change to a list that already has an item. -/
theorem claim_C8 :
    (∀ t : Text, ensure_list_items t = joinNL (specEnsure (splitlines t)) ++ ['\n']) ∧
    ensure_list_items "\\begin\x7bitemize\x7d\n\\end\x7bitemize\x7d".data
      = "\\begin\x7bitemize\x7d\n\\item\n\\end\x7bitemize\x7d\n".data ∧
    ensure_list_items "\\begin\x7bitemize\x7d\n\\item x\n\\end\x7bitemize\x7d".data
      = "\\begin\x7bitemize\x7d\n\\item x\n\\end\x7bitemize\x7d\n".data := by
  refine ⟨ensure_list_items_eq_spec, ?_, ?_⟩
  · rw [ensure_list_items_eq_spec]
    decide
  · rw [ensure_list_items_eq_spec]
    decide

example : splitlines "a\n\nb".data = ["a".data, [], "b".data] := by decide
example : splitlines "a\r\nb".data = ["a".data, "b".data] := by decide
example : splitlines "a\n".data = ["a".data] := by decide
example : joinNL ["a".data, "b".data] = "a\nb".data := by decide
example : pyReplace "xayax".data "a".data "bb".data = "xbbybbx".data := by decide

end L2D
